import Mathlib

/-!
Verification of the chyp rewriting core (src/chyp/rewrite.py and
src/chyp/proofstate.py) against its specification.

The hypergraph store, the rule data type, the occurrence finder and the
theory state (graph.py, rule.py, matcher.py, state.py) are consumed by the
core through a fixed contract and are modelled here from the specification;
definitions embedding code from rewrite.py and proofstate.py follow the
source line by line.
-/

set_option maxRecDepth 10000

deriving instance DecidableEq for Except

namespace Chyp

/-! ### Association lists (embedding of Python dicts) -/

/-- Lookup in an association list, first binding wins (Python dict lookup). -/
def look {α β : Type} [DecidableEq α] : List (α × β) → α → Option β
  | [], _ => none
  | (k, b) :: rest, a => if k = a then some b else look rest a

/-- Update/insert a key in an association list (Python dict assignment). -/
def setk {α β : Type} [DecidableEq α] : List (α × β) → α → β → List (α × β)
  | [], a, b => [(a, b)]
  | (k, c) :: rest, a, b => if k = a then (a, b) :: rest else (k, c) :: setk rest a b

@[simp] theorem look_nil {α β : Type} [DecidableEq α] (a : α) :
    look ([] : List (α × β)) a = none := rfl

@[simp] theorem look_cons {α β : Type} [DecidableEq α] (k a : α) (b : β) (l : List (α × β)) :
    look ((k, b) :: l) a = if k = a then some b else look l a := rfl

theorem look_setk_self {α β : Type} [DecidableEq α] (l : List (α × β)) (a : α) (b : β) :
    look (setk l a b) a = some b := by
  induction l with
  | nil => simp [setk, look]
  | cons p rest ih =>
    obtain ⟨k, c⟩ := p
    by_cases h : k = a <;> simp [setk, look, h, ih]

theorem look_setk_ne {α β : Type} [DecidableEq α] (l : List (α × β)) (a a' : α) (b : β)
    (h : a ≠ a') : look (setk l a b) a' = look l a' := by
  induction l with
  | nil => simp [setk, look, h]
  | cons p rest ih =>
    obtain ⟨k, c⟩ := p
    by_cases hk : k = a
    · subst hk
      simp [setk, look, h]
    · simp only [setk, if_neg hk, look_cons]
      by_cases hk' : k = a' <;> simp [hk', ih]

/-! ### The hypergraph store

Modelled from the spec: a directed hypergraph whose hyperedges carry an
ordered source-vertex sequence and an ordered target-vertex sequence, a
distinguished ordered input-boundary and output-boundary sequence of
vertices, and per-vertex / per-edge attributes. -/

/-- Modelled from the spec: attributes of a vertex (type tag, arity,
position, payload), as consumed by `dpo` when copying interior vertices. -/
structure VData where
  vtype : String := ""
  size : Nat := 1
  x : Int := 0
  y : Int := 0
  value : String := ""
deriving DecidableEq, Repr

/-- Modelled from the spec: attributes of a hyperedge (ordered sources and
targets, payload, position, styling, fan flag), as consumed by `dpo`. -/
structure EData where
  s : List Nat := []
  t : List Nat := []
  value : String := ""
  x : Int := 0
  y : Int := 0
  fg : String := ""
  bg : String := ""
  hyper : Bool := false
deriving DecidableEq, Repr

/-- Modelled from the spec: the mutable hypergraph value of the Hypergraph
Store.  Vertex and edge identities are natural numbers; `vindex`/`eindex`
are the next fresh identities. -/
structure Graph where
  vdata : List (Nat × VData) := []
  edata : List (Nat × EData) := []
  inputs : List Nat := []
  outputs : List Nat := []
  vindex : Nat := 0
  eindex : Nat := 0
deriving DecidableEq, Repr

namespace Graph

/-- The vertex identities, in insertion order. -/
def vertices (g : Graph) : List Nat := g.vdata.map Prod.fst

/-- The edge identities, in insertion order. -/
def edges (g : Graph) : List Nat := g.edata.map Prod.fst

/-- Vertex attributes (default attributes for an absent identity). -/
def vertex_data (g : Graph) (v : Nat) : VData := (look g.vdata v).getD {}

/-- Edge attributes (default attributes for an absent identity). -/
def edge_data (g : Graph) (e : Nat) : EData := (look g.edata e).getD {}

/-- Modelled from the spec: a vertex is boundary when it lies on the
declared input or output interface. -/
def is_boundary (g : Graph) (v : Nat) : Bool :=
  decide (v ∈ g.inputs) || decide (v ∈ g.outputs)

/-- Number of input-boundary ports held by `v` (the length of the
`in_indices` record of the vertex: the positions of the input boundary at
which `v` occurs). -/
def inCount (g : Graph) (v : Nat) : Nat := g.inputs.count v

/-- Number of output-boundary ports held by `v`. -/
def outCount (g : Graph) (v : Nat) : Nat := g.outputs.count v

/-- Modelled from the spec: deep copy; in this value-semantics model a copy
is the value itself. -/
def copy (g : Graph) : Graph := g

/-- Modelled from the spec: add a fresh vertex carrying the given attributes,
returning the new graph and the fresh identity. -/
def add_vertex (g : Graph) (vd : VData) : Graph × Nat :=
  ({ g with vdata := g.vdata ++ [(g.vindex, vd)], vindex := g.vindex + 1 }, g.vindex)

/-- Modelled from the spec: add a fresh edge carrying the given attributes,
returning the new graph and the fresh identity. -/
def add_edge (g : Graph) (ed : EData) : Graph × Nat :=
  ({ g with edata := g.edata ++ [(g.eindex, ed)], eindex := g.eindex + 1 }, g.eindex)

/-- Modelled from the spec: remove a vertex from the store. -/
def remove_vertex (g : Graph) (v : Nat) : Graph :=
  { g with vdata := g.vdata.filter (fun p => p.1 ≠ v) }

/-- Modelled from the spec: remove an edge from the store. -/
def remove_edge (g : Graph) (e : Nat) : Graph :=
  { g with edata := g.edata.filter (fun p => p.1 ≠ e) }

/-- Replace every occurrence of `b` by `a` in a vertex list. -/
def substV (a b : Nat) (l : List Nat) : List Nat :=
  l.map (fun w => if w = b then a else w)

/-- Modelled from the spec: merge vertex `b` into vertex `a`, identifying
the two vertices; every occurrence of `b` on the boundary or at an edge end
is redirected to `a` and `b` is dropped. -/
def merge_vertices (g : Graph) (a b : Nat) : Graph :=
  { g with
    inputs := substV a b g.inputs
    outputs := substV a b g.outputs
    edata := g.edata.map (fun p => (p.1, { p.2 with s := substV a b p.2.s, t := substV a b p.2.t }))
    vdata := g.vdata.filter (fun p => p.1 ≠ b) }

/-- Replace each occurrence of `v` in `l` by a fresh identity starting at
`idx`; returns the rewritten list, the fresh identities in order, and the
next fresh identity. -/
def explodeList (v : Nat) : List Nat → Nat → List Nat × List Nat × Nat
  | [], idx => ([], [], idx)
  | w :: ws, idx =>
    if w = v then
      let r := explodeList v ws (idx + 1)
      (idx :: r.1, idx :: r.2.1, r.2.2)
    else
      let r := explodeList v ws idx
      (w :: r.1, r.2.1, r.2.2)

/-- Explode pass over edge targets: each edge's target occurrences of `v`
become fresh inbound vertices. -/
def explodeEdgesT (v : Nat) : List (Nat × EData) → Nat → List (Nat × EData) × List Nat × Nat
  | [], idx => ([], [], idx)
  | (e, ed) :: rest, idx =>
    let r1 := explodeList v ed.t idx
    let r2 := explodeEdgesT v rest r1.2.2
    ((e, { ed with t := r1.1 }) :: r2.1, r1.2.1 ++ r2.2.1, r2.2.2)

/-- Explode pass over edge sources: each edge's source occurrences of `v`
become fresh outbound vertices. -/
def explodeEdgesS (v : Nat) : List (Nat × EData) → Nat → List (Nat × EData) × List Nat × Nat
  | [], idx => ([], [], idx)
  | (e, ed) :: rest, idx =>
    let r1 := explodeList v ed.s idx
    let r2 := explodeEdgesS v rest r1.2.2
    ((e, { ed with s := r1.1 }) :: r2.1, r1.2.1 ++ r2.2.1, r2.2.2)

/-- Modelled from the spec: split ("explode") a vertex into inbound and
outbound halves: one fresh inbound vertex per inbound wire-end (occurrence
on the input boundary or at an edge target) and one fresh outbound vertex
per outbound wire-end (occurrence on the output boundary or at an edge
source); the original vertex is removed.  Returns the new graph together
with the inbound and the outbound fresh vertices. -/
def explode_vertex (g : Graph) (v : Nat) : Graph × List Nat × List Nat :=
  let vd := g.vertex_data v
  let rIn := explodeList v g.inputs g.vindex
  let rOut := explodeList v g.outputs rIn.2.2
  let rT := explodeEdgesT v g.edata rOut.2.2
  let rS := explodeEdgesS v rT.1 rT.2.2
  let inVs := rIn.2.1 ++ rT.2.1
  let outVs := rOut.2.1 ++ rS.2.1
  ({ g with
      inputs := rIn.1
      outputs := rOut.1
      edata := rS.1
      vdata := (g.vdata.filter (fun p => p.1 ≠ v)) ++ (inVs ++ outVs).map (fun i => (i, vd))
      vindex := rS.2.2 },
   inVs, outVs)

/-- Size queries used by the ProofState. -/
def num_vertices (g : Graph) : Nat := g.vdata.length

def num_edges (g : Graph) : Nat := g.edata.length

end Graph

/-! ### Rules

Modelled from the spec: a Rule owns two hypergraphs `lhs` and `rhs` with
equal boundary-port counts; constructing a rule from boundary-incompatible
graphs raises a `RuleError`. -/

structure Rule where
  lhs : Graph
  rhs : Graph
deriving DecidableEq, Repr

namespace Rule

/-- Modelled from the spec: deep copy of a rule (value copy here). -/
def copy (r : Rule) : Rule := ⟨r.lhs.copy, r.rhs.copy⟩

/-- Equal boundary-port counts on both sides. -/
def wf (r : Rule) : Bool :=
  decide (r.lhs.inputs.length = r.rhs.inputs.length) &&
  decide (r.lhs.outputs.length = r.rhs.outputs.length)

end Rule

/-- Modelled from the spec: the Rule constructor; a boundary-arity mismatch
between the two graphs fails with a `RuleError` diagnostic. -/
def mkRule (lhs rhs : Graph) : Except String Rule :=
  if lhs.inputs.length = rhs.inputs.length ∧ lhs.outputs.length = rhs.outputs.length then
    .ok ⟨lhs, rhs⟩
  else
    .error "Boundary arity mismatch constructing rule."

/-! ### Occurrences (matches)

Modelled from the spec: an Occurrence is a structure-preserving embedding
carrying a vertex-identity mapping, an edge-identity mapping, the target
graph (codomain) and the target vertices/edges flagged as images. -/

structure Match where
  domain : Graph
  codomain : Graph
  vertex_map : List (Nat × Nat) := []
  edge_map : List (Nat × Nat) := []
  vertex_image : List Nat := []
  edge_image : List Nat := []
deriving DecidableEq, Repr

/-- The image of a pattern vertex under the match's vertex mapping. -/
def mImg (m : Match) (v : Nat) : Nat := (look m.vertex_map v).getD 0

/-- The image of a pattern edge under the match's edge mapping. -/
def eImg (m : Match) (e : Nat) : Nat := (look m.edge_map e).getD 0

/-- Modelled from the spec: validity of an occurrence as a
structure-preserving embedding of `m.domain` into `m.codomain`: the two
mappings are total into the target, edges are carried to edges with the
pointwise-mapped ordered sources and targets and the same payload, vertex
attributes are preserved, the edge mapping is injective, and every
non-boundary pattern vertex is matched onto a non-boundary target vertex
whose incident edges are all images of pattern edges (so that deleting the
matched pattern leaves no dangling wire-end). -/
def matchOk (m : Match) : Bool :=
  let p := m.domain
  let g := m.codomain
  (p.vertices.all fun v =>
    match look m.vertex_map v with
    | some v1 => decide (v1 ∈ g.vertices)
    | none => false) &&
  (p.edges.all fun e =>
    match look m.edge_map e with
    | some e1 =>
      decide (e1 ∈ g.edges) &&
      decide ((g.edge_data e1).s = (p.edge_data e).s.map (mImg m)) &&
      decide ((g.edge_data e1).t = (p.edge_data e).t.map (mImg m)) &&
      decide ((g.edge_data e1).value = (p.edge_data e).value)
    | none => false) &&
  (p.vertices.all fun v =>
    decide ((g.vertex_data (mImg m v)).value = (p.vertex_data v).value) &&
    decide ((g.vertex_data (mImg m v)).vtype = (p.vertex_data v).vtype) &&
    decide ((g.vertex_data (mImg m v)).size = (p.vertex_data v).size)) &&
  (p.edges.all fun e => p.edges.all fun e' =>
    decide (e = e') || decide (eImg m e ≠ eImg m e')) &&
  (p.vertices.all fun v =>
    p.is_boundary v ||
    (!(g.is_boundary (mImg m v)) &&
     (p.vertices.all fun w => decide (w = v) || decide (mImg m w ≠ mImg m v)) &&
     (g.edges.all fun e1 =>
        (!(decide (mImg m v ∈ (g.edge_data e1).s) || decide (mImg m v ∈ (g.edge_data e1).t))) ||
        decide (e1 ∈ p.edges.map (eImg m)))))

/-- All total mappings from `keys` into `vals`, as association lists, in a
fixed enumeration order. -/
def allMaps : List Nat → List Nat → List (List (Nat × Nat))
  | [], _ => [[]]
  | k :: ks, vals => (allMaps ks vals).flatMap (fun ms => vals.map (fun v => (k, v) :: ms))

/-- Modelled from the spec: the Occurrence Finder's
`occurrences(pattern, target)` enumeration, realized as the finite list of
valid structure-preserving embeddings of `pattern` into `target` in a fixed
order. -/
def MatchesList (pattern target : Graph) : List Match :=
  (allMaps pattern.vertices target.vertices).flatMap fun vm =>
    (allMaps pattern.edges target.edges).filterMap fun em =>
      let m : Match := ⟨pattern, target, vm, em, [], []⟩
      if matchOk m then some m else none

/-- Modelled from the spec: validity of an isomorphism between two graphs:
a structure-preserving embedding that is bijective on vertices and edges
and carries the ordered boundary pointwise. -/
def isoOk (m : Match) : Bool :=
  matchOk m &&
  decide (m.domain.vertices.length = m.codomain.vertices.length) &&
  decide (m.domain.edges.length = m.codomain.edges.length) &&
  (m.domain.vertices.all fun v => m.domain.vertices.all fun w =>
    decide (v = w) || decide (mImg m v ≠ mImg m w)) &&
  decide (m.domain.inputs.map (mImg m) = m.codomain.inputs) &&
  decide (m.domain.outputs.map (mImg m) = m.codomain.outputs)

/-- Modelled from the spec: the Occurrence Finder's `isomorphic(a, b)` test,
returning an occurrence witnessing the isomorphism or absent. -/
def find_iso (a b : Graph) : Option Match :=
  ((allMaps a.vertices b.vertices).flatMap fun vm =>
    (allMaps a.edges b.edges).filterMap fun em =>
      let m : Match := ⟨a, b, vm, em, [], []⟩
      if isoOk m then some m else none).head?

/-! ### The DPO rewriter (embedding of src/chyp/rewrite.py, `dpo`) -/

/-- The capability-error message raised by `dpo` for unsupported boundary
shapes. -/
def frobMsg : String := "Rewriting modulo Frobenius not yet supported."

/-- From rewrite.py lines 40-41: remove from the context every edge that is
the image of an `lhs` edge. -/
def removeMatchedEdges (rule : Rule) (m : Match) (ctx : Graph) : Graph :=
  rule.lhs.edges.foldl (fun c e => c.remove_edge (eImg m e)) ctx

/-- From rewrite.py lines 44-62: the body of the pushout-complement loop for
one `lhs` vertex, acting on the context and the `in_map`/`out_map` records.
An error carries the context at the raise point. -/
def pcStep (rule : Rule) (m : Match) (st : Graph × List (Nat × Nat) × List (Nat × Nat))
    (v : Nat) : Except (String × Graph) (Graph × List (Nat × Nat) × List (Nat × Nat)) :=
  let ctx := st.1
  let im := st.2.1
  let om := st.2.2
  let v1 := mImg m v
  if rule.lhs.is_boundary v = false then
    .ok (ctx.remove_vertex v1, im, om)
  else
    let in_count := rule.lhs.inCount v
    let out_count := rule.lhs.outCount v
    if in_count = 1 ∧ out_count = 1 then
      let r := ctx.explode_vertex v1
      if r.2.1.length = 1 ∧ r.2.2.length = 1 then
        .ok (r.1, setk im v (r.2.1.getD 0 0), setk om v (r.2.2.getD 0 0))
      else
        .error (frobMsg, r.1)
    else if in_count > 1 ∨ out_count > 1 then
      .error (frobMsg, ctx)
    else
      .ok (ctx, im, om)

/-- The pushout-complement loop over the `lhs` vertices. -/
def pcLoop (rule : Rule) (m : Match) :
    List Nat → Graph × List (Nat × Nat) × List (Nat × Nat) →
    Except (String × Graph) (Graph × List (Nat × Nat) × List (Nat × Nat))
  | [], st => .ok st
  | v :: vs, st =>
    match pcStep rule m st v with
    | .ok st' => pcLoop rule m vs st'
    | .error e => .error e

/-- From rewrite.py lines 38-63: copy the codomain, remove the matched
edges, then process every `lhs` vertex; returns the context together with
the `in_map` and `out_map` of split boundary vertices. -/
def pushout_complement (rule : Rule) (m : Match) :
    Except (String × Graph) (Graph × List (Nat × Nat) × List (Nat × Nat)) :=
  pcLoop rule m rule.lhs.vertices (removeMatchedEdges rule m m.codomain.copy, [], [])

/-- From rewrite.py lines 72-73: map each `rhs` input port, aligned by
position with the `lhs` input ports, to the inbound half recorded in
`in_map` when the `lhs` vertex was split, else to its original image. -/
def dpoInputs (m : Match) (im : List (Nat × Nat)) (pairs : List (Nat × Nat))
    (vm : List (Nat × Nat)) : List (Nat × Nat) :=
  pairs.foldl (fun vm p => setk vm p.2 ((look im p.1).getD (mImg m p.1))) vm

/-- From rewrite.py lines 77-82: map each `rhs` output port, aligned by
position with the `lhs` output ports; when the `rhs` vertex already has an
image (it is also an input port) the two images are merged in the context
instead. -/
def dpoOutputs (m : Match) (om : List (Nat × Nat)) :
    List (Nat × Nat) → Graph × List (Nat × Nat) → Graph × List (Nat × Nat)
  | [], st => st
  | p :: rest, st =>
    let vr1 := (look om p.1).getD (mImg m p.1)
    match look st.2 p.2 with
    | some w => dpoOutputs m om rest (st.1.merge_vertices w vr1, st.2)
    | none => dpoOutputs m om rest (st.1, setk st.2 p.2 vr1)

/-- From rewrite.py lines 85-92: give every non-boundary `rhs` vertex a
fresh vertex in the context, copying its attributes, recording the image
and flagging it in the vertex image set. -/
def dpoFresh (rhs : Graph) :
    List Nat → Graph × List (Nat × Nat) × List Nat → Graph × List (Nat × Nat) × List Nat
  | [], st => st
  | v :: vs, st =>
    if rhs.is_boundary v then
      dpoFresh rhs vs st
    else
      let r := st.1.add_vertex (rhs.vertex_data v)
      dpoFresh rhs vs (r.1, setk st.2.1 v r.2, st.2.2 ++ [r.2])

/-- From rewrite.py lines 95-101: add every `rhs` edge to the context with
its endpoint sequences translated through the vertex mapping. -/
def dpoEdges (rhs : Graph) (vm : List (Nat × Nat)) :
    List Nat → Graph × List (Nat × Nat) × List Nat → Graph × List (Nat × Nat) × List Nat
  | [], st => st
  | e :: es, st =>
    let ed := rhs.edge_data e
    let r := st.1.add_edge
      { ed with
        s := ed.s.map (fun v => (look vm v).getD 0)
        t := ed.t.map (fun v => (look vm v).getD 0) }
    dpoEdges rhs vm es (r.1, setk st.2.1 e r.2, st.2.2 ++ [r.2])

/-- From rewrite.py `dpo`: the whole rewrite, also returning the final
context graph explicitly; on failure the error carries the context at the
raise point. -/
def dpoCtx (rule : Rule) (m : Match) : Except (String × Graph) (Graph × Match) :=
  match pushout_complement rule m with
  | .error e => .error e
  | .ok st =>
    let vm1 := dpoInputs m st.2.1 (List.zip rule.lhs.inputs rule.rhs.inputs) []
    let r2 := dpoOutputs m st.2.2 (List.zip rule.lhs.outputs rule.rhs.outputs) (st.1, vm1)
    let r3 := dpoFresh rule.rhs rule.rhs.vertices (r2.1, r2.2, [])
    let r4 := dpoEdges rule.rhs r3.2.1 rule.rhs.edges (r3.1, [], [])
    .ok (r4.1, ⟨rule.rhs, r4.1, r3.2.1, r4.2.1, r3.2.2, r4.2.2⟩)

/-- From rewrite.py lines 23-103: double-pushout rewriting; given a rule
and a match of `rule.lhs` into a graph, return a match of `rule.rhs` into
the rewritten graph (a singleton list), or raise the capability error. -/
def dpo (rule : Rule) (m : Match) : Except String (List Match) :=
  match dpoCtx rule m with
  | .error e => .error e.1
  | .ok r => .ok [r.2]

/-- Projection of `pushout_complement` onto the capability outcome and the
two split-vertex records. -/
def pcMaps (rule : Rule) (m : Match) :
    Except String (List (Nat × Nat) × List (Nat × Nat)) :=
  match pushout_complement rule m with
  | .error e => .error e.1
  | .ok st => .ok (st.2.1, st.2.2)

/-! ### Reference-cell view of `dpo` (object identity of the target graph)

The Python rewriter mutates graph objects in place; `dpo` copies
`match.codomain` into a private context object (rewrite.py line 39) and
every subsequent store edit hits that private object.  To state claims
about object identity we run `dpo` against a heap of graph objects: the
caller's graph lives in cell `c`, the copy allocates a fresh cell, and the
net effect of all mutations lands in the fresh cell. -/

def dpoOnHeap (rule : Rule) (m : Match) (c : Nat) (heap : List Graph) :
    List Graph × Except String (List Match) :=
  let g := heap.getD c {}
  let m' := { m with codomain := g }
  let heap1 := heap ++ [g.copy]
  match dpoCtx rule m' with
  | .error e => (heap1.set heap.length e.2, .error e.1)
  | .ok r => (heap1.set heap.length r.1, .ok [r.2])

/-! ### Goals and proof states (embedding of src/chyp/proofstate.py) -/

/-- Modelled from the spec: the enclosing theory's read-only state — the
already-proven rules, their definition sequence positions, the diagnostics
log of (document, line, message) triples, and the document name. -/
structure State where
  rules : List (String × Rule) := []
  rule_sequence : List (String × Nat) := []
  errors : List (String × Int × String) := []
  file_name : String := ""
deriving DecidableEq, Repr

/-- From proofstate.py lines 12-23: a single goal — a formula rule plus the
assumptions visible only within this goal. -/
structure Goal where
  formula : Rule
  assumptions : List (String × Rule) := []
deriving DecidableEq, Repr

/-- From proofstate.py lines 21-23. -/
def Goal.copy (g : Goal) : Goal :=
  ⟨g.formula.copy, g.assumptions.map (fun p => (p.1, p.2.copy))⟩

/-- From proofstate.py lines 25-38: goal stack, local context, deduplicated
per-state error messages, the theory state, the sequence position and the
current line. -/
structure ProofState where
  state : State
  sequence : Nat
  goals : List Goal := []
  context : List (String × Rule) := []
  errors : List String := []
  line : Int := -1
deriving DecidableEq, Repr

/-- A placeholder rule used to express out-of-range indexing. -/
def defaultRule : Rule := ⟨{}, {}⟩

/-- A placeholder goal used to express out-of-range indexing. -/
def defaultGoal : Goal := ⟨defaultRule, []⟩

namespace ProofState

/-- From proofstate.py lines 56-59: record a diagnostic, deduplicated by
message text per proof state. -/
def error (ps : ProofState) (message : String) : ProofState :=
  if message ∈ ps.errors then ps
  else
    { ps with
      state := { ps.state with
        errors := ps.state.errors ++ [(ps.state.file_name, ps.line, message)] }
      errors := ps.errors ++ [message] }

/-- From proofstate.py lines 61-62. -/
def num_goals (ps : ProofState) : Nat := ps.goals.length

/-- The message recorded when a global rule is cited at or before its own
definition position (proofstate.py line 101). -/
def seqMsg (rule_name : String) (seq pos : Nat) : String :=
  "Attempting to use rule " ++ rule_name ++ " before it is defined/proven (" ++
    toString seq ++ " >= " ++ toString pos ++ ")."

/-- The message recorded when a rule name resolves nowhere
(proofstate.py line 106). -/
def undefMsg (rule_name : String) : String :=
  "Rule " ++ rule_name ++ " not defined."

/-- From proofstate.py lines 67-109: look a rule up in the local context,
then the assumptions of goal `goal_i`, then the global theory filtered by
sequence position; diagnostics are recorded for a forward reference or an
unresolved name.  Returns the (possibly mutated) proof state and the rule.

Python raises an IndexError when `goal_i` is out of range of the goal
stack; this model returns no assumption hit there, and every theorem about
this function assumes the goal exists. -/
def lookup_rule (ps : ProofState) (rule_expr : String) (goal_i : Nat := 0)
    (loc_flag : Option Bool := none) : ProofState × Option Rule :=
  let rule_name := rule_expr
  let loc := loc_flag = none ∨ loc_flag = some true
  let glo := loc_flag = none ∨ loc_flag = some false
  let rule0 : Option Rule :=
    if loc then
      match look ps.context rule_name with
      | some r => some r
      | none => look (ps.goals.getD goal_i defaultGoal).assumptions rule_name
    else none
  match rule0 with
  | some r => (ps, some r.copy)
  | none =>
    if glo then
      match look ps.state.rule_sequence rule_name with
      | some seq =>
        if seq ≥ ps.sequence then
          (ps.error (seqMsg rule_name seq ps.sequence), none)
        else
          match look ps.state.rules rule_name with
          | some r => (ps, some r.copy)
          | none => (ps.error (undefMsg rule_name), none)
      | none => (ps.error (undefMsg rule_name), none)
    else (ps.error (undefMsg rule_name), none)

/-- From proofstate.py lines 120-126: the mutation target — the topmost
goal's formula for the empty name, else a local-context rule. -/
def target_rule (ps : ProofState) (target : String := "") : Option Rule :=
  if target = "" ∧ ps.goals.length > 0 then
    some (ps.goals.getD 0 defaultGoal).formula
  else
    look ps.context target

/-- Attribute assignment `self.target_rule(target).lhs = g`: commit a graph
into the left side of the mutation target (a no-op if the target does not
resolve, where Python would have raised earlier). -/
def set_target_lhs (ps : ProofState) (target : String) (g : Graph) : ProofState :=
  if target = "" ∧ ps.goals.length > 0 then
    match ps.goals with
    | [] => ps
    | g0 :: rest => { ps with goals := { g0 with formula := { g0.formula with lhs := g } } :: rest }
  else
    match look ps.context target with
    | some r => { ps with context := setk ps.context target { r with lhs := g } }
    | none => ps

/-- From proofstate.py lines 232-234. -/
def lhs (ps : ProofState) : Option Graph :=
  (ps.target_rule "").map (fun r => r.lhs.copy)

/-- From proofstate.py lines 236-238. -/
def rhs (ps : ProofState) : Option Graph :=
  (ps.target_rule "").map (fun r => r.rhs.copy)

/-- From proofstate.py lines 128-142: build the rule pairing the target's
current left side with the proposed graph, commit the proposed graph into
the target, then push a copy of the (already committed) topmost goal whose
formula is the new rule; a `RuleError` is recorded as a diagnostic and
makes no structural change. -/
def replace_lhs (ps : ProofState) (new_lhs : Graph) : ProofState :=
  match ps.lhs with
  | none => ps
  | some old_lhs =>
    match mkRule old_lhs new_lhs with
    | .ok r =>
      let ps1 := ps.set_target_lhs "" new_lhs
      match ps1.goals with
      | [] => ps1
      | g0 :: rest => { ps1 with goals := { g0.copy with formula := r } :: g0 :: rest }
    | .error e => ps.error e

/-- From proofstate.py lines 215-222: test whether goal `i`'s formula sides
are isomorphic, delegated to the Occurrence Finder; out-of-range indices
return absent. -/
def validate_goal (ps : ProofState) (i : Int := 0) : Option Match :=
  if 0 ≤ i ∧ i < (ps.goals.length : Int) then
    let g := ps.goals.getD i.toNat defaultGoal
    find_iso g.formula.lhs g.formula.rhs
  else none

/-- From proofstate.py lines 223-229: like `validate_goal`, but pop the
goal on success; returns the new state and the outcome. -/
def try_close_goal (ps : ProofState) (i : Int := 0) : ProofState × Bool :=
  if 0 ≤ i ∧ i < (ps.goals.length : Int) then
    let g := ps.goals.getD i.toNat defaultGoal
    if (find_iso g.formula.lhs g.formula.rhs).isSome then
      ({ ps with goals := ps.goals.eraseIdx i.toNat }, true)
    else (ps, false)
  else (ps, false)

/-- The inner loop of `rewrite_lhs` (proofstate.py lines 178-181) over an
already fixed enumeration of pattern occurrences: apply `dpo`, commit each
rewritten graph into the target side immediately, and yield the pair; a
capability error propagates. -/
def rewrite_lhs_from (rule : Rule) (target : String) :
    List Match → ProofState → List (Match × Match) →
    Except String (List (Match × Match) × ProofState)
  | [], ps, acc => .ok (acc, ps)
  | mg :: rest, ps, acc =>
    match dpo rule mg with
    | .error msg => .error msg
    | .ok results =>
      let ps' := results.foldl (fun p mh => p.set_target_lhs target mh.codomain.copy) ps
      rewrite_lhs_from rule target rest ps' (acc ++ results.map (fun mh => (mg, mh)))

/-- From proofstate.py lines 160-181: rewrite the left side of the goal (or
of a named local rule) with the named rule, pulling at most `pulls`
elements of the lazy sequence.  The occurrence enumeration is created once,
against the target side's graph as it is when iteration starts
(`Matches(rule.lhs, self.target_rule(target).lhs)`); each completed element
commits its rewritten graph into the target side immediately. -/
def rewrite_lhs (ps : ProofState) (rule_expr : String) (target : String := "")
    (pulls : Nat := 1000000) : Except String (List (Match × Match) × ProofState) :=
  match ps.lookup_rule rule_expr with
  | (ps1, none) => .ok ([], ps1)
  | (ps1, some rule) =>
    match ps1.target_rule target with
    | none => .ok ([], ps1)
    | some tr =>
      rewrite_lhs_from rule target ((MatchesList rule.lhs tr.lhs).take pulls) ps1 []

/-- Attribute assignment `self.target_rule(target).rhs = g`: commit a graph
into the right side of the mutation target (a no-op if the target does not
resolve, where Python would have raised earlier). -/
def set_target_rhs (ps : ProofState) (target : String) (g : Graph) : ProofState :=
  if target = "" ∧ ps.goals.length > 0 then
    match ps.goals with
    | [] => ps
    | g0 :: rest => { ps with goals := { g0 with formula := { g0.formula with rhs := g } } :: rest }
  else
    match look ps.context target with
    | some r => { ps with context := setk ps.context target { r with rhs := g } }
    | none => ps

/-- The inner loop of `rewrite_rhs` (proofstate.py lines 198-201) over an
already fixed enumeration of pattern occurrences: apply `dpo`, commit each
rewritten graph into the target side immediately, and yield the pair; a
capability error propagates. -/
def rewrite_rhs_from (rule : Rule) (target : String) :
    List Match → ProofState → List (Match × Match) →
    Except String (List (Match × Match) × ProofState)
  | [], ps, acc => .ok (acc, ps)
  | mg :: rest, ps, acc =>
    match dpo rule mg with
    | .error msg => .error msg
    | .ok results =>
      let ps' := results.foldl (fun p mh => p.set_target_rhs target mh.codomain.copy) ps
      rewrite_rhs_from rule target rest ps' (acc ++ results.map (fun mh => (mg, mh)))

/-- From proofstate.py lines 183-201: rewrite the right side of the goal
(or of a named local rule) with the named rule, pulling at most `pulls`
elements of the lazy sequence.  The occurrence enumeration is created once,
against `target_graph = self.target_rule(target).rhs` as it is when
iteration starts; each completed element commits its rewritten graph into
the target side immediately. -/
def rewrite_rhs (ps : ProofState) (rule_expr : String) (target : String := "")
    (pulls : Nat := 1000000) : Except String (List (Match × Match) × ProofState) :=
  match ps.lookup_rule rule_expr with
  | (ps1, none) => .ok ([], ps1)
  | (ps1, some rule) =>
    match ps1.target_rule target with
    | none => .ok ([], ps1)
    | some tr =>
      rewrite_rhs_from rule target ((MatchesList rule.lhs tr.rhs).take pulls) ps1 []

end ProofState

/-! ### Reference-cell view of `lookup_rule` (object identity of returned rules)

`lookup_rule` hands back `rule.copy()` (proofstate.py line 109): every
successful lookup allocates a fresh rule object.  To state claims about
object identity we run the lookup against a heap of rule objects: a
success appends the returned copy as a fresh cell. -/

def lookupRuleAlloc (heap : List Rule) (ps : ProofState) (rule_expr : String) :
    List Rule × Option Nat :=
  match (ps.lookup_rule rule_expr).2 with
  | some r => (heap ++ [r], some heap.length)
  | none => (heap, none)

/-! ### Boundary-shape predicates on rule sides -/

/-- A boundary vertex carries at most one inbound and at most one outbound
wire-end, and not one of each (so its image is never split): the shapes the
pushout complement passes through untouched. -/
def plainBoundaries (g : Graph) : Bool :=
  (g.inputs ++ g.outputs).all fun v =>
    decide (g.inCount v ≤ 1) && decide (g.outCount v ≤ 1) &&
    !(decide (g.inCount v = 1) && decide (g.outCount v = 1))

/-- The claim's reading of "no unsupported boundary shape": no boundary
vertex carries more than one inbound or more than one outbound wire-end. -/
def noFrobenius (g : Graph) : Bool :=
  (g.inputs ++ g.outputs).all fun v =>
    decide (g.inCount v ≤ 1) && decide (g.outCount v ≤ 1)

/-- Some boundary vertex carries more than one inbound or more than one
outbound wire-end. -/
def hasBigBoundary (g : Graph) : Bool :=
  g.vertices.any fun v =>
    g.is_boundary v && (decide (g.inCount v > 1) || decide (g.outCount v > 1))

/-! ### Elementary facts about the store operations -/

namespace Graph

@[simp] theorem remove_edge_inputs (g : Graph) (e : Nat) :
    (g.remove_edge e).inputs = g.inputs := rfl

@[simp] theorem remove_edge_outputs (g : Graph) (e : Nat) :
    (g.remove_edge e).outputs = g.outputs := rfl

@[simp] theorem remove_vertex_inputs (g : Graph) (v : Nat) :
    (g.remove_vertex v).inputs = g.inputs := rfl

@[simp] theorem remove_vertex_outputs (g : Graph) (v : Nat) :
    (g.remove_vertex v).outputs = g.outputs := rfl

@[simp] theorem add_vertex_inputs (g : Graph) (vd : VData) :
    (g.add_vertex vd).1.inputs = g.inputs := rfl

@[simp] theorem add_vertex_outputs (g : Graph) (vd : VData) :
    (g.add_vertex vd).1.outputs = g.outputs := rfl

@[simp] theorem add_edge_inputs (g : Graph) (ed : EData) :
    (g.add_edge ed).1.inputs = g.inputs := rfl

@[simp] theorem add_edge_outputs (g : Graph) (ed : EData) :
    (g.add_edge ed).1.outputs = g.outputs := rfl

@[simp] theorem copy_graph_eq (g : Graph) : g.copy = g := rfl

@[simp] theorem merge_vertices_inputs_length (g : Graph) (a b : Nat) :
    (g.merge_vertices a b).inputs.length = g.inputs.length := by
  simp [merge_vertices, substV]

@[simp] theorem merge_vertices_outputs_length (g : Graph) (a b : Nat) :
    (g.merge_vertices a b).outputs.length = g.outputs.length := by
  simp [merge_vertices, substV]

end Graph

@[simp] theorem Rule.copy_rule_eq (r : Rule) : r.copy = r := rfl

/-! ### Claim theorems -/

/-- **C10.** For every proof state and every goal index `i` that is negative
or at least the number of goals, `validate_goal i` returns absent and
`try_close_goal i` returns `false`; neither touches the goal stack, the
local context or the diagnostics log. -/
theorem goal_index_out_of_range (ps : ProofState) (i : Int)
    (h : i < 0 ∨ (ps.goals.length : Int) ≤ i) :
    ps.validate_goal i = none ∧ ps.try_close_goal i = (ps, false) := by
  have hcond : ¬(0 ≤ i ∧ i < (ps.goals.length : Int)) := by omega
  constructor
  · simp [ProofState.validate_goal, hcond]
  · simp [ProofState.try_close_goal, hcond]

/-- Witness for C10 at a concrete proof state and index `-1`. -/
theorem goal_index_out_of_range_witness :
    (((-1 : Int) < 0 ∨ ((({ state := {}, sequence := 0 } : ProofState).goals.length : Int) ≤ -1)) ∧
      ({ state := {}, sequence := 0 } : ProofState).validate_goal (-1) = none ∧
      ({ state := {}, sequence := 0 } : ProofState).try_close_goal (-1) =
        ({ state := {}, sequence := 0 }, false)) :=
  ⟨Or.inl (by decide), goal_index_out_of_range { state := {}, sequence := 0 } (-1) (Or.inl (by decide))⟩

/-- **C5.** With a non-empty goal stack, `try_close_goal 0` returns `true`
exactly when the Occurrence Finder reports the topmost goal's formula sides
isomorphic; on success the topmost goal is popped and nothing else changes,
on failure the state is returned unchanged. -/
theorem try_close_goal_top (ps : ProofState) (g : Goal) (gs : List Goal)
    (hg : ps.goals = g :: gs) :
    ((ps.try_close_goal 0).2 = true ↔ (find_iso g.formula.lhs g.formula.rhs).isSome = true) ∧
    ((ps.try_close_goal 0).2 = true → (ps.try_close_goal 0).1 = { ps with goals := gs }) ∧
    ((ps.try_close_goal 0).2 = false → (ps.try_close_goal 0).1 = ps) := by
  have hcond : (0 ≤ (0 : Int) ∧ (0 : Int) < (ps.goals.length : Int)) := by
    rw [hg]; simp
  by_cases hiso : (find_iso g.formula.lhs g.formula.rhs).isSome = true
  · have : ps.try_close_goal 0 = ({ ps with goals := gs }, true) := by
      simp [ProofState.try_close_goal, hcond, hg, hiso]
    simp [this, hiso]
  · have : ps.try_close_goal 0 = (ps, false) := by
      simp [ProofState.try_close_goal, hcond, hg, hiso]
    simp [this, hiso]

/-! ### Resolution lemmas for `lookup_rule` -/

theorem lookup_rule_undef (ps : ProofState) (name : String)
    (h1 : look ps.context name = none)
    (h2 : look (ps.goals.getD 0 defaultGoal).assumptions name = none)
    (h3 : look ps.state.rule_sequence name = none) :
    ps.lookup_rule name = (ps.error (ProofState.undefMsg name), none) := by
  have h2' : look (ps.goals[0]?.getD defaultGoal).assumptions name = none := by
    simpa using h2
  simp [ProofState.lookup_rule, h1, h2', h3]

theorem lookup_rule_global (ps : ProofState) (name : String) (seq : Nat) (r : Rule)
    (h1 : look ps.context name = none)
    (h2 : look (ps.goals.getD 0 defaultGoal).assumptions name = none)
    (h3 : look ps.state.rule_sequence name = some seq)
    (h4 : look ps.state.rules name = some r) :
    ps.lookup_rule name =
      if seq ≥ ps.sequence then (ps.error (ProofState.seqMsg name seq ps.sequence), none)
      else (ps, some r.copy) := by
  have h2' : look (ps.goals[0]?.getD defaultGoal).assumptions name = none := by
    simpa using h2
  by_cases hseq : seq ≥ ps.sequence <;>
    simp [ProofState.lookup_rule, h1, h2', h3, h4, hseq]

theorem lookup_rule_local (ps : ProofState) (name : String) (r : Rule)
    (h1 : look ps.context name = some r) :
    ps.lookup_rule name = (ps, some r.copy) := by
  simp [ProofState.lookup_rule, h1]

/-- Recording a message already present in the per-state log changes
nothing. -/
theorem error_dedup (ps : ProofState) (msg : String) (h : msg ∈ ps.errors) :
    ps.error msg = ps := by
  simp [ProofState.error, h]

/-- Recording a fresh message appends it to both logs. -/
theorem error_fresh (ps : ProofState) (msg : String) (h : msg ∉ ps.errors) :
    ps.error msg =
      { ps with
        state := { ps.state with
          errors := ps.state.errors ++ [(ps.state.file_name, ps.line, msg)] }
        errors := ps.errors ++ [msg] } := by
  simp [ProofState.error, h]

/-- **C6.** A rule name absent from the local context and the current
goal's assumptions but present in the global theory resolves temporally:
at a definition position at or after the proof state's own position the
lookup returns absent and records the forward-reference diagnostic, and at
a strictly earlier position it returns a copy of the stored rule with no
diagnostic. -/
theorem lookup_rule_temporal (ps : ProofState) (name : String) (seq : Nat) (r : Rule)
    (hg : ps.goals ≠ [])
    (h1 : look ps.context name = none)
    (h2 : look (ps.goals.getD 0 defaultGoal).assumptions name = none)
    (h3 : look ps.state.rule_sequence name = some seq)
    (h4 : look ps.state.rules name = some r) :
    (seq ≥ ps.sequence →
      (ps.lookup_rule name).2 = none ∧
      ProofState.seqMsg name seq ps.sequence ∈ (ps.lookup_rule name).1.errors) ∧
    (seq < ps.sequence → ps.lookup_rule name = (ps, some r.copy)) := by
  have h := lookup_rule_global ps name seq r h1 h2 h3 h4
  constructor
  · intro hseq
    rw [h, if_pos hseq]
    refine ⟨rfl, ?_⟩
    by_cases hmem : ProofState.seqMsg name seq ps.sequence ∈ ps.errors
    · rw [error_dedup _ _ hmem]; exact hmem
    · rw [error_fresh _ _ hmem]; simp
  · intro hseq
    rw [h, if_neg (by omega)]

/-- **C7.** Rewriting with a rule name that resolves nowhere yields no
pairs and records exactly the diagnostic `Rule undefined_rule not
defined.`; repeating the call yields no pairs and records nothing further,
since diagnostics are deduplicated by message text per proof state. -/
theorem rewrite_lhs_undefined_rule (ps : ProofState) (k k' : Nat)
    (hg : ps.goals ≠ [])
    (h1 : look ps.context "undefined_rule" = none)
    (h2 : look (ps.goals.getD 0 defaultGoal).assumptions "undefined_rule" = none)
    (h3 : look ps.state.rule_sequence "undefined_rule" = none)
    (h4 : "Rule undefined_rule not defined." ∉ ps.errors) :
    ∃ ps1,
      ps.rewrite_lhs "undefined_rule" "" k = .ok ([], ps1) ∧
      ps1.state.errors =
        ps.state.errors ++ [(ps.state.file_name, ps.line, "Rule undefined_rule not defined.")] ∧
      ps1.errors = ps.errors ++ ["Rule undefined_rule not defined."] ∧
      ps1.rewrite_lhs "undefined_rule" "" k' = .ok ([], ps1) := by
  have hmsg : ProofState.undefMsg "undefined_rule" = "Rule undefined_rule not defined." := rfl
  set msg := "Rule undefined_rule not defined." with hmsgdef
  set ps1 := ps.error msg with hps1
  have hfields := error_fresh ps msg h4
  refine ⟨ps1, ?_, ?_, ?_, ?_⟩
  · rw [ProofState.rewrite_lhs, lookup_rule_undef ps _ h1 h2 h3, hmsg]
  · rw [hps1, hfields]
  · rw [hps1, hfields]
  · have e1 : look ps1.context "undefined_rule" = none := by
      rw [hps1, hfields]; exact h1
    have e2 : look (ps1.goals.getD 0 defaultGoal).assumptions "undefined_rule" = none := by
      rw [hps1, hfields]; exact h2
    have e3 : look ps1.state.rule_sequence "undefined_rule" = none := by
      rw [hps1, hfields]; exact h3
    have emem : msg ∈ ps1.errors := by
      rw [hps1, hfields]; simp
    rw [ProofState.rewrite_lhs, lookup_rule_undef ps1 _ e1 e2 e3, hmsg,
      error_dedup ps1 msg emem]

/-! ### Concrete instances used by witnesses and counterexamples -/

/-- A bare wire: one vertex that is both the input and the output port. -/
def wireG0 : Graph := { vdata := [(0, {})], inputs := [0], outputs := [0], vindex := 1 }

def wireG1 : Graph := { vdata := [(1, {})], inputs := [1], outputs := [1], vindex := 2 }

def wireG2 : Graph := { vdata := [(2, {})], inputs := [2], outputs := [2], vindex := 3 }

def wireG3 : Graph := { vdata := [(3, {})], inputs := [3], outputs := [3], vindex := 4 }

/-- The bare-wire identity rule. -/
def ruleBW : Rule := ⟨wireG0, wireG0⟩

/-- A one-vertex graph with an empty boundary. -/
def isoG : Graph := { vdata := [(5, {})], inputs := [], outputs := [], vindex := 6 }

/-- The bare wire matched onto the isolated vertex of `isoG`. -/
def mBW : Match := ⟨wireG0, isoG, [(0, 5)], [], [], []⟩

/-- A single `f`-edge between an input vertex and an output vertex. -/
def fEdgeG : Graph :=
  { vdata := [(0, {}), (1, {})], edata := [(0, { s := [0], t := [1], value := "f" })],
    inputs := [0], outputs := [1], vindex := 2, eindex := 1 }

/-- The same shape carrying a `g`-edge. -/
def gEdgeG : Graph :=
  { vdata := [(0, {}), (1, {})], edata := [(0, { s := [0], t := [1], value := "g" })],
    inputs := [0], outputs := [1], vindex := 2, eindex := 1 }

/-- The rewrite rule `f => g`. -/
def ruleFG : Rule := ⟨fEdgeG, gEdgeG⟩

/-- A chain of two `f`-edges. -/
def chainG : Graph :=
  { vdata := [(10, {}), (11, {}), (12, {})],
    edata := [(20, { s := [10], t := [11], value := "f" }),
              (21, { s := [11], t := [12], value := "f" })],
    inputs := [10], outputs := [12], vindex := 13, eindex := 22 }

/-- A proof state whose goal equates the chain with itself and whose local
context holds the rule `f => g` under the name `r`. -/
def psW : ProofState :=
  { state := {}, sequence := 0, goals := [⟨⟨chainG, chainG⟩, []⟩], context := [("r", ruleFG)] }

/-- A goal with isomorphic formula sides. -/
def gIso : Goal := ⟨⟨wireG0, wireG0⟩, []⟩

def psIso : ProofState := { state := {}, sequence := 0, goals := [gIso] }

/-- A proof state citing the not-yet-proven global rule `a` (defined at
sequence position 3, cited from position 1). -/
def psC6 : ProofState :=
  { state := { rules := [("a", ruleBW)], rule_sequence := [("a", 3)] },
    sequence := 1, goals := [defaultGoal] }

def psC7 : ProofState := { state := {}, sequence := 0, goals := [defaultGoal] }

/-- A proof state for the `replace_lhs` scenario: the goal formula equates
two distinct bare wires. -/
def psC8 : ProofState :=
  { state := {}, sequence := 0, goals := [⟨⟨wireG0, wireG1⟩, []⟩] }

/-- Witness for C5: closing a goal with isomorphic sides pops it. -/
theorem try_close_goal_top_witness :
    psIso.goals = gIso :: [] ∧
    (((psIso.try_close_goal 0).2 = true ↔
        (find_iso gIso.formula.lhs gIso.formula.rhs).isSome = true) ∧
      ((psIso.try_close_goal 0).2 = true →
        (psIso.try_close_goal 0).1 = { psIso with goals := [] }) ∧
      ((psIso.try_close_goal 0).2 = false → (psIso.try_close_goal 0).1 = psIso)) :=
  ⟨rfl, try_close_goal_top psIso gIso [] rfl⟩

/-- Witness for C6 at the concrete forward reference `a` (position 3 cited
from position 1). -/
theorem lookup_rule_temporal_witness :
    (psC6.goals ≠ [] ∧
      look psC6.context "a" = none ∧
      look (psC6.goals.getD 0 defaultGoal).assumptions "a" = none ∧
      look psC6.state.rule_sequence "a" = some 3 ∧
      look psC6.state.rules "a" = some ruleBW) ∧
    ((3 ≥ psC6.sequence →
        (psC6.lookup_rule "a").2 = none ∧
        ProofState.seqMsg "a" 3 psC6.sequence ∈ (psC6.lookup_rule "a").1.errors) ∧
      (3 < psC6.sequence → psC6.lookup_rule "a" = (psC6, some ruleBW.copy))) :=
  ⟨⟨by decide, by decide, by decide, by decide, by decide⟩,
    lookup_rule_temporal psC6 "a" 3 ruleBW (by decide) (by decide) (by decide)
      (by decide) (by decide)⟩

/-- Witness for C7 at a concrete proof state, repeated with different pull
counts. -/
theorem rewrite_lhs_undefined_rule_witness :
    (psC7.goals ≠ [] ∧
      look psC7.context "undefined_rule" = none ∧
      look (psC7.goals.getD 0 defaultGoal).assumptions "undefined_rule" = none ∧
      look psC7.state.rule_sequence "undefined_rule" = none ∧
      "Rule undefined_rule not defined." ∉ psC7.errors) ∧
    (∃ ps1,
      psC7.rewrite_lhs "undefined_rule" "" 3 = .ok ([], ps1) ∧
      ps1.state.errors =
        psC7.state.errors ++
          [(psC7.state.file_name, psC7.line, "Rule undefined_rule not defined.")] ∧
      ps1.errors = psC7.errors ++ ["Rule undefined_rule not defined."] ∧
      ps1.rewrite_lhs "undefined_rule" "" 5 = .ok ([], ps1)) :=
  ⟨⟨by decide, by decide, by decide, by decide, by decide⟩,
    rewrite_lhs_undefined_rule psC7 3 5 (by decide) (by decide) (by decide)
      (by decide) (by decide)⟩

/-- **C9.** Two successive lookups of the same resolving rule name hand out
two fresh rule objects: both are structurally equal to the stored rule, the
three cells are pairwise distinct, and overwriting one returned cell leaves
the other returned cell and the stored cell untouched. -/
theorem lookup_rule_independent_copies (heap : List Rule) (ps : ProofState)
    (name : String) (s : Nat) (r : Rule)
    (hs : heap[s]? = some r)
    (hl : ps.lookup_rule name = (ps, some r)) :
    lookupRuleAlloc heap ps name = (heap ++ [r], some heap.length) ∧
    lookupRuleAlloc (heap ++ [r]) ps name = (heap ++ [r] ++ [r], some (heap.length + 1)) ∧
    s ≠ heap.length ∧ s ≠ heap.length + 1 ∧
    (heap ++ [r] ++ [r])[heap.length]? = some r ∧
    (heap ++ [r] ++ [r])[heap.length + 1]? = some r ∧
    ∀ r' : Rule,
      ((heap ++ [r] ++ [r]).set heap.length r')[heap.length + 1]? = some r ∧
      ((heap ++ [r] ++ [r]).set heap.length r')[s]? = some r := by
  have hslen : s < heap.length := by
    by_contra hcon
    rw [List.getElem?_eq_none (by omega)] at hs
    exact Option.noConfusion hs
  refine ⟨?_, ?_, by omega, by omega, ?_, ?_, ?_⟩
  · rw [lookupRuleAlloc, hl]
  · rw [lookupRuleAlloc, hl]
    simp
  · rw [List.append_assoc]
    rw [List.getElem?_append_right (by omega)]
    simp
  · rw [List.append_assoc]
    rw [List.getElem?_append_right (by omega)]
    simp
  · intro r'
    constructor
    · rw [List.getElem?_set_ne (by omega), List.append_assoc,
        List.getElem?_append_right (by omega)]
      simp
    · rw [List.getElem?_set_ne (by omega), List.append_assoc,
        List.getElem?_append_left (by omega)]
      exact hs

/-- A proof state whose local context binds the name `a` to the bare-wire
rule. -/
def psW_rules : ProofState :=
  { state := {}, sequence := 0, goals := [defaultGoal], context := [("a", ruleBW)] }

/-- Witness for C9: the stored rule sits in cell 0 and the two lookups
allocate cells 1 and 2. -/
theorem lookup_rule_independent_copies_witness :
    (([ruleBW] : List Rule)[0]? = some ruleBW ∧
      (psW_rules.lookup_rule "a") = (psW_rules, some ruleBW)) ∧
    (lookupRuleAlloc [ruleBW] psW_rules "a" = ([ruleBW] ++ [ruleBW], some 1) ∧
      lookupRuleAlloc ([ruleBW] ++ [ruleBW]) psW_rules "a" =
        ([ruleBW] ++ [ruleBW] ++ [ruleBW], some 2) ∧
      (0 : Nat) ≠ 1 ∧ (0 : Nat) ≠ 2 ∧
      ([ruleBW] ++ [ruleBW] ++ [ruleBW])[1]? = some ruleBW ∧
      ([ruleBW] ++ [ruleBW] ++ [ruleBW])[2]? = some ruleBW ∧
      ∀ r' : Rule,
        (([ruleBW] ++ [ruleBW] ++ [ruleBW]).set 1 r')[2]? = some ruleBW ∧
        (([ruleBW] ++ [ruleBW] ++ [ruleBW]).set 1 r')[0]? = some ruleBW) :=
  ⟨⟨by decide, by decide⟩,
    lookup_rule_independent_copies [ruleBW] psW_rules "a" 0 ruleBW (by decide) (by decide)⟩

@[simp] theorem Goal.copy_goal_eq (g : Goal) : g.copy = g := by
  simp [Goal.copy]

/-- One `replace_lhs` call: the target's current left side is paired with
the proposed graph into a fresh rule, the proposed graph is committed into
the topmost goal, and a goal carrying the fresh rule is pushed. -/
theorem replace_lhs_step (ps : ProofState) (g0 : Goal) (rest : List Goal)
    (A B C : Graph) (hg : ps.goals = g0 :: rest) (hf : g0.formula = ⟨A, B⟩)
    (hC : A.inputs.length = C.inputs.length ∧ A.outputs.length = C.outputs.length) :
    ps.replace_lhs C =
      { ps with goals :=
          ⟨⟨A, C⟩, g0.assumptions⟩ :: ⟨⟨C, B⟩, g0.assumptions⟩ :: rest } := by
  have hlhs : ps.lhs = some A := by
    simp [ProofState.lhs, ProofState.target_rule, hg, hf, Graph.copy]
  have hmk : mkRule A C = .ok ⟨A, C⟩ := by simp [mkRule, hC]
  rw [ProofState.replace_lhs, hlhs]
  simp only [hmk]
  simp [ProofState.set_target_lhs, hg, hf]

/-- **C8 (amended).** Two sequential `replace_lhs` calls on the same proof
state each grow the goal stack by exactly one; each pushed sub-goal's
formula pairs the target's left side as it was just before that call with
the proposed graph (not the prior topmost goal's whole formula), and the
prior topmost goal's left side is overwritten by the proposed graph. -/
theorem replace_lhs_two_calls (ps : ProofState) (g0 : Goal) (rest : List Goal)
    (A B C D : Graph) (hg : ps.goals = g0 :: rest) (hf : g0.formula = ⟨A, B⟩)
    (hC : A.inputs.length = C.inputs.length ∧ A.outputs.length = C.outputs.length)
    (hD : A.inputs.length = D.inputs.length ∧ A.outputs.length = D.outputs.length) :
    (ps.replace_lhs C).goals.length = ps.goals.length + 1 ∧
    ((ps.replace_lhs C).replace_lhs D).goals.length = (ps.replace_lhs C).goals.length + 1 ∧
    (ps.replace_lhs C).goals.map Goal.formula =
      (⟨A, C⟩ : Rule) :: (⟨C, B⟩ : Rule) :: rest.map Goal.formula ∧
    ((ps.replace_lhs C).replace_lhs D).goals.map Goal.formula =
      (⟨A, D⟩ : Rule) :: (⟨D, C⟩ : Rule) :: (⟨C, B⟩ : Rule) :: rest.map Goal.formula := by
  have h1 := replace_lhs_step ps g0 rest A B C hg hf hC
  have h2 := replace_lhs_step (ps.replace_lhs C) ⟨⟨A, C⟩, g0.assumptions⟩
    (⟨⟨C, B⟩, g0.assumptions⟩ :: rest) A C D (by rw [h1]) rfl hD
  refine ⟨?_, ?_, ?_, ?_⟩
  · rw [h1, hg]; simp
  · rw [h2, h1]; simp
  · rw [h1]; simp
  · rw [h2]; simp

/-- Counterexample for C8 as stated: the pushed sub-goal's formula is not
the prior topmost goal's formula (the stack does grow by one). -/
theorem replace_lhs_formula_counterexample :
    (psC8.replace_lhs wireG2).goals.length = psC8.goals.length + 1 ∧
    ((psC8.replace_lhs wireG2).goals.getD 0 defaultGoal).formula ≠
      (psC8.goals.getD 0 defaultGoal).formula := by decide

/-- Witness for the amended C8 at the concrete proof state `psC8`. -/
theorem replace_lhs_two_calls_witness :
    (psC8.goals = (⟨⟨wireG0, wireG1⟩, []⟩ : Goal) :: [] ∧
      wireG0.inputs.length = wireG2.inputs.length ∧
      wireG0.outputs.length = wireG2.outputs.length ∧
      wireG0.inputs.length = wireG3.inputs.length ∧
      wireG0.outputs.length = wireG3.outputs.length) ∧
    ((psC8.replace_lhs wireG2).goals.length = psC8.goals.length + 1 ∧
      ((psC8.replace_lhs wireG2).replace_lhs wireG3).goals.length =
        (psC8.replace_lhs wireG2).goals.length + 1 ∧
      (psC8.replace_lhs wireG2).goals.map Goal.formula =
        (⟨wireG0, wireG2⟩ : Rule) :: (⟨wireG2, wireG1⟩ : Rule) :: [] ∧
      ((psC8.replace_lhs wireG2).replace_lhs wireG3).goals.map Goal.formula =
        (⟨wireG0, wireG3⟩ : Rule) :: (⟨wireG3, wireG2⟩ : Rule) ::
          (⟨wireG2, wireG1⟩ : Rule) :: []) :=
  ⟨⟨rfl, by decide, by decide, by decide, by decide⟩,
    replace_lhs_two_calls psC8 ⟨⟨wireG0, wireG1⟩, []⟩ [] wireG0 wireG1 wireG2 wireG3
      rfl rfl ⟨by decide, by decide⟩ ⟨by decide, by decide⟩⟩

/-- **C2.** When `dpo` raises the capability error, the caller-visible
target graph is untouched: the rewriter copies `match.codomain` into a
private cell before any edit, so the caller's cell holds the same graph
after the failed call. -/
theorem dpo_error_private_copy (rule : Rule) (m : Match) (c : Nat)
    (heap : List Graph) (msg : String)
    (hc : c < heap.length)
    (herr : (dpoOnHeap rule m c heap).2 = .error msg) :
    (dpoOnHeap rule m c heap).1[c]? = heap[c]? := by
  have key : ∀ (x g : Graph), ((heap ++ [g]).set heap.length x)[c]? = heap[c]? := by
    intro x g
    rw [List.getElem?_set_ne (by omega), List.getElem?_append_left (by omega)]
  unfold dpoOnHeap
  dsimp only
  split
  · exact key _ _
  · exact key _ _

/-- Witness for C2: the failing bare-wire rewrite leaves the caller's graph
cell intact. -/
theorem dpo_error_private_copy_witness :
    ((0 : Nat) < ([isoG] : List Graph).length ∧
      (dpoOnHeap ruleBW mBW 0 [isoG]).2 = .error frobMsg) ∧
    (dpoOnHeap ruleBW mBW 0 [isoG]).1[0]? = ([isoG] : List Graph)[0]? :=
  ⟨⟨by decide, by decide⟩,
    dpo_error_private_copy ruleBW mBW 0 [isoG] frobMsg (by decide) (by decide)⟩

/-! ### Behaviour of the pushout complement on plain boundaries -/

/-- The pure effect of the pushout-complement vertex loop when no split
occurs: interior vertex images are removed, boundary vertex images are left
untouched. -/
def pcRemove (rule : Rule) (m : Match) (vs : List Nat) (ctx : Graph) : Graph :=
  vs.foldl
    (fun c v => if rule.lhs.is_boundary v = false then c.remove_vertex (mImg m v) else c) ctx

theorem plainBoundaries_shape (g : Graph) (h : plainBoundaries g = true) (v : Nat)
    (hb : g.is_boundary v = true) :
    g.inCount v ≤ 1 ∧ g.outCount v ≤ 1 ∧ ¬(g.inCount v = 1 ∧ g.outCount v = 1) := by
  have hv : v ∈ g.inputs ++ g.outputs := by
    rw [Graph.is_boundary] at hb
    rcases Bool.or_eq_true_iff.mp hb with h' | h' <;>
      simp [List.mem_append, of_decide_eq_true h']
  have := (List.all_eq_true.mp h) v hv
  simp only [Bool.and_eq_true, Bool.not_eq_true', Bool.and_eq_false_iff,
    decide_eq_true_eq, decide_eq_false_iff_not] at this
  obtain ⟨⟨h1, h2⟩, h3⟩ := this
  refine ⟨h1, h2, ?_⟩
  rintro ⟨e1, e2⟩
  rcases h3 with h3 | h3 <;> simp [e1, e2] at h3

theorem pcLoop_plain (rule : Rule) (m : Match) (h : plainBoundaries rule.lhs = true) :
    ∀ (vs : List Nat) (ctx : Graph),
      pcLoop rule m vs (ctx, [], []) = .ok (pcRemove rule m vs ctx, [], []) := by
  intro vs
  induction vs with
  | nil => intro ctx; rfl
  | cons v rest ih =>
    intro ctx
    by_cases hb : rule.lhs.is_boundary v = true
    · obtain ⟨h1, h2, h3⟩ := plainBoundaries_shape rule.lhs h v hb
      have hstep : pcStep rule m (ctx, [], []) v = .ok (ctx, [], []) := by
        rw [pcStep]
        rw [if_neg (by simp [hb])]
        rw [if_neg (by exact fun hc => h3 hc)]
        rw [if_neg (by omega)]
      rw [pcLoop, hstep]
      dsimp only
      rw [ih]
      have : pcRemove rule m (v :: rest) ctx = pcRemove rule m rest ctx := by
        simp [pcRemove, List.foldl_cons, hb]
      rw [this]
    · have hb' : rule.lhs.is_boundary v = false := by
        cases hq : rule.lhs.is_boundary v
        · rfl
        · exact absurd hq hb
      have hstep : pcStep rule m (ctx, [], []) v =
          .ok (ctx.remove_vertex (mImg m v), [], []) := by
        rw [pcStep, if_pos hb']
      rw [pcLoop, hstep]
      dsimp only
      rw [ih]
      have : pcRemove rule m (v :: rest) ctx =
          pcRemove rule m rest (ctx.remove_vertex (mImg m v)) := by
        simp [pcRemove, List.foldl_cons, hb']
      rw [this]

theorem pushout_complement_plain (rule : Rule) (m : Match)
    (h : plainBoundaries rule.lhs = true) :
    pushout_complement rule m =
      .ok (pcRemove rule m rule.lhs.vertices (removeMatchedEdges rule m m.codomain), [], []) := by
  rw [pushout_complement, Graph.copy_graph_eq, pcLoop_plain rule m h]

/-- Any error raised inside the vertex loop carries the capability
message. -/
theorem pcStep_error_msg (rule : Rule) (m : Match)
    (st : Graph × List (Nat × Nat) × List (Nat × Nat)) (v : Nat)
    (e : String × Graph) (h : pcStep rule m st v = .error e) : e.1 = frobMsg := by
  rw [pcStep] at h
  by_cases h1 : rule.lhs.is_boundary v = false
  · rw [if_pos h1] at h; exact Except.noConfusion h
  · rw [if_neg h1] at h
    by_cases h2 : rule.lhs.inCount v = 1 ∧ rule.lhs.outCount v = 1
    · rw [if_pos h2] at h
      by_cases h3 : ((st.1.explode_vertex (mImg m v)).2.1.length = 1 ∧
          (st.1.explode_vertex (mImg m v)).2.2.length = 1)
      · rw [if_pos h3] at h; exact Except.noConfusion h
      · rw [if_neg h3] at h
        cases h; rfl
    · rw [if_neg h2] at h
      by_cases h4 : rule.lhs.inCount v > 1 ∨ rule.lhs.outCount v > 1
      · rw [if_pos h4] at h; cases h; rfl
      · rw [if_neg h4] at h; exact Except.noConfusion h

/-- A boundary vertex with more than one inbound or more than one outbound
wire-end makes the vertex loop fail with the capability message. -/
theorem pcLoop_error_of_bad (rule : Rule) (m : Match) :
    ∀ (vs : List Nat) (st : Graph × List (Nat × Nat) × List (Nat × Nat)),
      (∃ v ∈ vs, rule.lhs.is_boundary v = true ∧
        (rule.lhs.inCount v > 1 ∨ rule.lhs.outCount v > 1)) →
      ∃ g, pcLoop rule m vs st = .error (frobMsg, g) := by
  intro vs
  induction vs with
  | nil => intro st h; obtain ⟨v, hv, _⟩ := h; exact absurd hv (List.not_mem_nil v)
  | cons w rest ih =>
    intro st h
    cases hstep : pcStep rule m st w with
    | error e =>
      have := pcStep_error_msg rule m st w e hstep
      refine ⟨e.2, ?_⟩
      rw [pcLoop, hstep]
      cases e
      simp_all
    | ok st' =>
      obtain ⟨v, hv, hvb, hvc⟩ := h
      have hw : v ∈ rest := by
        rcases List.mem_cons.mp hv with hq | hq
        · subst hq
          exfalso
          rw [pcStep] at hstep
          rw [if_neg (by simp [hvb])] at hstep
          by_cases h2 : rule.lhs.inCount v = 1 ∧ rule.lhs.outCount v = 1
          · omega
          · rw [if_neg h2, if_pos hvc] at hstep
            exact Except.noConfusion hstep
        · exact hq
      obtain ⟨g, hg⟩ := ih st' ⟨v, hw, hvb, hvc⟩
      refine ⟨g, ?_⟩
      rw [pcLoop, hstep]
      dsimp only
      rw [hg]

/-! ### Boundary preservation along the rewrite stages -/

theorem foldl_graph_inputs {α : Type} (f : Graph → α → Graph)
    (hf : ∀ c a, (f c a).inputs = c.inputs) :
    ∀ (l : List α) (c : Graph), (l.foldl f c).inputs = c.inputs := by
  intro l
  induction l with
  | nil => intro c; rfl
  | cons a rest ih => intro c; rw [List.foldl_cons, ih, hf]

theorem foldl_graph_outputs {α : Type} (f : Graph → α → Graph)
    (hf : ∀ c a, (f c a).outputs = c.outputs) :
    ∀ (l : List α) (c : Graph), (l.foldl f c).outputs = c.outputs := by
  intro l
  induction l with
  | nil => intro c; rfl
  | cons a rest ih => intro c; rw [List.foldl_cons, ih, hf]

theorem removeMatchedEdges_inputs (rule : Rule) (m : Match) (ctx : Graph) :
    (removeMatchedEdges rule m ctx).inputs = ctx.inputs := by
  rw [removeMatchedEdges]
  exact foldl_graph_inputs (fun c e => c.remove_edge (eImg m e)) (fun c e => rfl)
    rule.lhs.edges ctx

theorem removeMatchedEdges_outputs (rule : Rule) (m : Match) (ctx : Graph) :
    (removeMatchedEdges rule m ctx).outputs = ctx.outputs := by
  rw [removeMatchedEdges]
  exact foldl_graph_outputs (fun c e => c.remove_edge (eImg m e)) (fun c e => rfl)
    rule.lhs.edges ctx

theorem pcRemove_inputs (rule : Rule) (m : Match) (vs : List Nat) (ctx : Graph) :
    (pcRemove rule m vs ctx).inputs = ctx.inputs := by
  refine foldl_graph_inputs _ ?_ _ _
  intro c v
  by_cases hb : rule.lhs.is_boundary v = false <;> simp [hb]

theorem pcRemove_outputs (rule : Rule) (m : Match) (vs : List Nat) (ctx : Graph) :
    (pcRemove rule m vs ctx).outputs = ctx.outputs := by
  refine foldl_graph_outputs _ ?_ _ _
  intro c v
  by_cases hb : rule.lhs.is_boundary v = false <;> simp [hb]

/-! ### The boundary-port maps built by `dpo` -/

/-- The boundary fold shared by the input and output stages when no split
and no merge occurs. -/
def setFold (img : Nat → Nat) (pairs : List (Nat × Nat)) (vm : List (Nat × Nat)) :
    List (Nat × Nat) :=
  pairs.foldl (fun vm p => setk vm p.2 (img p.1)) vm

theorem look_setFold_not_mem (img : Nat → Nat) (pairs : List (Nat × Nat)) (k : Nat) :
    ∀ vm, k ∉ pairs.map Prod.snd → look (setFold img pairs vm) k = look vm k := by
  induction pairs with
  | nil => intro vm _; rfl
  | cons q rest ih =>
    intro vm hk
    rw [List.map_cons] at hk
    have hk1 : q.2 ≠ k := fun hq => hk (List.mem_cons.mpr (Or.inl hq.symm))
    have hk2 : k ∉ rest.map Prod.snd := fun hq => hk (List.mem_cons.mpr (Or.inr hq))
    rw [setFold, List.foldl_cons]
    rw [show (rest.foldl (fun vm p => setk vm p.2 (img p.1)) (setk vm q.2 (img q.1))) =
      setFold img rest (setk vm q.2 (img q.1)) from rfl]
    rw [ih _ hk2, look_setk_ne _ _ _ _ hk1]

theorem look_setFold_mem (img : Nat → Nat) (pairs : List (Nat × Nat))
    (hnd : (pairs.map Prod.snd).Nodup) :
    ∀ vm, ∀ p ∈ pairs, look (setFold img pairs vm) p.2 = some (img p.1) := by
  induction pairs with
  | nil => intro vm p hp; exact absurd hp (List.not_mem_nil p)
  | cons q rest ih =>
    intro vm p hp
    rw [List.map_cons, List.nodup_cons] at hnd
    rw [setFold, List.foldl_cons]
    rw [show (rest.foldl (fun vm p => setk vm p.2 (img p.1)) (setk vm q.2 (img q.1))) =
      setFold img rest (setk vm q.2 (img q.1)) from rfl]
    rcases List.mem_cons.mp hp with hq | hq
    · subst hq
      rw [look_setFold_not_mem img rest p.2 _ hnd.1, look_setk_self]
    · exact ih hnd.2 _ p hq

theorem dpoInputs_eq_setFold (m : Match) (pairs : List (Nat × Nat))
    (vm : List (Nat × Nat)) :
    dpoInputs m [] pairs vm = setFold (mImg m) pairs vm := rfl

theorem dpoOutputs_no_merge (m : Match) (pairs : List (Nat × Nat)) :
    ∀ (h : Graph) (vm : List (Nat × Nat)),
      (∀ p ∈ pairs, look vm p.2 = none) →
      (pairs.map Prod.snd).Nodup →
      dpoOutputs m [] pairs (h, vm) = (h, setFold (mImg m) pairs vm) := by
  induction pairs with
  | nil => intro h vm _ _; rfl
  | cons q rest ih =>
    intro h vm hfresh hnd
    rw [List.map_cons, List.nodup_cons] at hnd
    have hq : look vm q.2 = none := hfresh q (List.mem_cons_self q rest)
    have hfresh' : ∀ p ∈ rest, look (setk vm q.2 (mImg m q.1)) p.2 = none := by
      intro p hp
      have hne : q.2 ≠ p.2 := by
        intro he
        exact hnd.1 (he ▸ List.mem_map_of_mem Prod.snd hp)
      rw [look_setk_ne _ _ _ _ hne]
      exact hfresh p (List.mem_cons_of_mem q hp)
    rw [dpoOutputs]
    dsimp only
    rw [hq]
    dsimp only
    simp only [look_nil, Option.getD_none]
    rw [ih h _ hfresh' hnd.2]
    rfl

theorem dpoFresh_graph_inputs (rhs : Graph) :
    ∀ (vs : List Nat) (st : Graph × List (Nat × Nat) × List Nat),
      (dpoFresh rhs vs st).1.inputs = st.1.inputs := by
  intro vs
  induction vs with
  | nil => intro st; rfl
  | cons v rest ih =>
    intro st
    rw [dpoFresh]
    by_cases hb : rhs.is_boundary v = true
    · rw [if_pos hb, ih]
    · rw [if_neg hb, ih]
      rfl

theorem dpoFresh_graph_outputs (rhs : Graph) :
    ∀ (vs : List Nat) (st : Graph × List (Nat × Nat) × List Nat),
      (dpoFresh rhs vs st).1.outputs = st.1.outputs := by
  intro vs
  induction vs with
  | nil => intro st; rfl
  | cons v rest ih =>
    intro st
    rw [dpoFresh]
    by_cases hb : rhs.is_boundary v = true
    · rw [if_pos hb, ih]
    · rw [if_neg hb, ih]
      rfl

theorem dpoFresh_boundary_look (rhs : Graph) (k : Nat) (hk : rhs.is_boundary k = true) :
    ∀ (vs : List Nat) (st : Graph × List (Nat × Nat) × List Nat),
      look (dpoFresh rhs vs st).2.1 k = look st.2.1 k := by
  intro vs
  induction vs with
  | nil => intro st; rfl
  | cons v rest ih =>
    intro st
    rw [dpoFresh]
    by_cases hb : rhs.is_boundary v = true
    · rw [if_pos hb, ih]
    · rw [if_neg hb, ih]
      have hne : v ≠ k := fun he => hb (he ▸ hk)
      exact look_setk_ne _ _ _ _ hne

theorem dpoEdges_graph_inputs (rhs : Graph) (vm : List (Nat × Nat)) :
    ∀ (es : List Nat) (st : Graph × List (Nat × Nat) × List Nat),
      (dpoEdges rhs vm es st).1.inputs = st.1.inputs := by
  intro es
  induction es with
  | nil => intro st; rfl
  | cons e rest ih => intro st; rw [dpoEdges, ih]; rfl

theorem dpoEdges_graph_outputs (rhs : Graph) (vm : List (Nat × Nat)) :
    ∀ (es : List Nat) (st : Graph × List (Nat × Nat) × List Nat),
      (dpoEdges rhs vm es st).1.outputs = st.1.outputs := by
  intro es
  induction es with
  | nil => intro st; rfl
  | cons e rest ih => intro st; rw [dpoEdges, ih]; rfl

/-! ### The no-split rewrite pipeline

When every `lhs` boundary vertex has a plain shape the pushout complement
records no splits, and the stages of `dpo` compose as follows. -/

/-- The context graph of the plain pushout complement. -/
def pcCtx (rule : Rule) (m : Match) : Graph :=
  pcRemove rule m rule.lhs.vertices (removeMatchedEdges rule m m.codomain)

/-- Stage 2 of the plain pipeline: boundary-port mapping. -/
def dpoStage2 (rule : Rule) (m : Match) : Graph × List (Nat × Nat) :=
  dpoOutputs m [] (List.zip rule.lhs.outputs rule.rhs.outputs)
    (pcCtx rule m, dpoInputs m [] (List.zip rule.lhs.inputs rule.rhs.inputs) [])

/-- Stage 3 of the plain pipeline: fresh interior vertices. -/
def dpoStage3 (rule : Rule) (m : Match) : Graph × List (Nat × Nat) × List Nat :=
  dpoFresh rule.rhs rule.rhs.vertices ((dpoStage2 rule m).1, (dpoStage2 rule m).2, [])

/-- Stage 4 of the plain pipeline: the `rhs` edges. -/
def dpoStage4 (rule : Rule) (m : Match) : Graph × List (Nat × Nat) × List Nat :=
  dpoEdges rule.rhs (dpoStage3 rule m).2.1 rule.rhs.edges ((dpoStage3 rule m).1, [], [])

/-- The single result occurrence returned by `dpo` on the plain path. -/
def dpoResult (rule : Rule) (m : Match) : Match :=
  ⟨rule.rhs, (dpoStage4 rule m).1, (dpoStage3 rule m).2.1, (dpoStage4 rule m).2.1,
    (dpoStage3 rule m).2.2, (dpoStage4 rule m).2.2⟩

theorem dpo_plain_eq (rule : Rule) (m : Match) (hl : plainBoundaries rule.lhs = true) :
    dpo rule m = .ok [dpoResult rule m] := by
  unfold dpo dpoCtx dpoResult dpoStage4 dpoStage3 dpoStage2 pcCtx
  rw [pushout_complement_plain rule m hl]

theorem plain_nodup_inputs (g : Graph) (h : plainBoundaries g = true) : g.inputs.Nodup := by
  rw [List.nodup_iff_count_le_one]
  intro a
  by_cases ha : a ∈ g.inputs
  · exact (plainBoundaries_shape g h a (by simp [Graph.is_boundary, ha])).1
  · rw [List.count_eq_zero_of_not_mem ha]
    omega

theorem plain_nodup_outputs (g : Graph) (h : plainBoundaries g = true) : g.outputs.Nodup := by
  rw [List.nodup_iff_count_le_one]
  intro a
  by_cases ha : a ∈ g.outputs
  · exact (plainBoundaries_shape g h a (by simp [Graph.is_boundary, ha])).2.1
  · rw [List.count_eq_zero_of_not_mem ha]
    omega

theorem plain_disjoint (g : Graph) (h : plainBoundaries g = true) :
    ∀ v, v ∈ g.inputs → v ∉ g.outputs := by
  intro v hvi hvo
  obtain ⟨h1, h2, h3⟩ := plainBoundaries_shape g h v (by simp [Graph.is_boundary, hvi])
  have c1 : 1 ≤ g.inCount v := List.count_pos_iff_mem.mpr hvi
  have c2 : 1 ≤ g.outCount v := List.count_pos_iff_mem.mpr hvo
  exact h3 ⟨by omega, by omega⟩

/-- **C1 (amended).** For every rule with matching boundary arities whose
`lhs` and `rhs` boundary vertices all carry at most one inbound and at most
one outbound wire-end and none carries exactly one of each (no bare-wire
port, hence no split), and every occurrence of `rule.lhs`, `dpo` succeeds
with exactly one result occurrence of `rule.rhs`: its vertex mapping is
defined on every `rhs` boundary port, the port aligned with the i-th input
(output) port of `lhs` is sent to that `lhs` port's image under the
occurrence, and the rewritten graph keeps the target graph's input- and
output-boundary cardinalities. -/
theorem dpo_plain_ok (rule : Rule) (m : Match)
    (hdom : m.domain = rule.lhs) (hm : matchOk m = true)
    (hwfi : rule.lhs.inputs.length = rule.rhs.inputs.length)
    (hwfo : rule.lhs.outputs.length = rule.rhs.outputs.length)
    (hl : plainBoundaries rule.lhs = true)
    (hr : plainBoundaries rule.rhs = true) :
    ∃ res : Match, dpo rule m = .ok [res] ∧ res.domain = rule.rhs ∧
      (∀ p ∈ List.zip rule.lhs.inputs rule.rhs.inputs,
        look res.vertex_map p.2 = some (mImg m p.1)) ∧
      (∀ p ∈ List.zip rule.lhs.outputs rule.rhs.outputs,
        look res.vertex_map p.2 = some (mImg m p.1)) ∧
      (∀ v ∈ rule.rhs.inputs, (look res.vertex_map v).isSome = true) ∧
      (∀ v ∈ rule.rhs.outputs, (look res.vertex_map v).isSome = true) ∧
      res.codomain.inputs.length = m.codomain.inputs.length ∧
      res.codomain.outputs.length = m.codomain.outputs.length := by
  have hsndIn : (List.zip rule.lhs.inputs rule.rhs.inputs).map Prod.snd = rule.rhs.inputs :=
    List.map_snd_zip _ _ (le_of_eq hwfi.symm)
  have hsndOut : (List.zip rule.lhs.outputs rule.rhs.outputs).map Prod.snd = rule.rhs.outputs :=
    List.map_snd_zip _ _ (le_of_eq hwfo.symm)
  have hndIn : ((List.zip rule.lhs.inputs rule.rhs.inputs).map Prod.snd).Nodup := by
    rw [hsndIn]; exact plain_nodup_inputs rule.rhs hr
  have hndOut : ((List.zip rule.lhs.outputs rule.rhs.outputs).map Prod.snd).Nodup := by
    rw [hsndOut]; exact plain_nodup_outputs rule.rhs hr
  have hfresh : ∀ p ∈ List.zip rule.lhs.outputs rule.rhs.outputs,
      look (dpoInputs m [] (List.zip rule.lhs.inputs rule.rhs.inputs) []) p.2 = none := by
    intro p hp
    have hpo : p.2 ∈ rule.rhs.outputs := by
      rw [← hsndOut]; exact List.mem_map_of_mem Prod.snd hp
    have hpi : p.2 ∉ (List.zip rule.lhs.inputs rule.rhs.inputs).map Prod.snd := by
      rw [hsndIn]
      exact fun hc => plain_disjoint rule.rhs hr p.2 hc hpo
    rw [dpoInputs_eq_setFold, look_setFold_not_mem _ _ _ _ hpi]
    rfl
  have hs2 : dpoStage2 rule m =
      (pcCtx rule m,
        setFold (mImg m) (List.zip rule.lhs.outputs rule.rhs.outputs)
          (setFold (mImg m) (List.zip rule.lhs.inputs rule.rhs.inputs) [])) := by
    rw [dpoStage2, dpoOutputs_no_merge m _ _ _ hfresh hndOut, dpoInputs_eq_setFold]
  -- the vertex map at a boundary port of the result
  have hlook3 : ∀ k, rule.rhs.is_boundary k = true →
      look (dpoStage3 rule m).2.1 k = look (dpoStage2 rule m).2 k := by
    intro k hk
    rw [dpoStage3, dpoFresh_boundary_look rule.rhs k hk]
  refine ⟨dpoResult rule m, dpo_plain_eq rule m hl, rfl, ?_, ?_, ?_, ?_, ?_, ?_⟩
  · -- input alignment
    intro p hp
    have hpmem : p.2 ∈ rule.rhs.inputs := by
      rw [← hsndIn]; exact List.mem_map_of_mem Prod.snd hp
    have hb : rule.rhs.is_boundary p.2 = true := by
      simp [Graph.is_boundary, hpmem]
    have hno : p.2 ∉ (List.zip rule.lhs.outputs rule.rhs.outputs).map Prod.snd := by
      rw [hsndOut]
      exact plain_disjoint rule.rhs hr p.2 hpmem
    have : look (dpoResult rule m).vertex_map p.2 = look (dpoStage2 rule m).2 p.2 :=
      hlook3 p.2 hb
    rw [this, hs2]
    rw [look_setFold_not_mem _ _ _ _ hno]
    exact look_setFold_mem (mImg m) _ hndIn [] p hp
  · -- output alignment
    intro p hp
    have hpmem : p.2 ∈ rule.rhs.outputs := by
      rw [← hsndOut]; exact List.mem_map_of_mem Prod.snd hp
    have hb : rule.rhs.is_boundary p.2 = true := by
      simp [Graph.is_boundary, hpmem]
    have : look (dpoResult rule m).vertex_map p.2 = look (dpoStage2 rule m).2 p.2 :=
      hlook3 p.2 hb
    rw [this, hs2]
    exact look_setFold_mem (mImg m) _ hndOut _ p hp
  · -- every rhs input port is mapped
    intro v hv
    rw [← hsndIn] at hv
    obtain ⟨p, hp, hpv⟩ := List.mem_map.mp hv
    subst hpv
    have hpmem : p.2 ∈ rule.rhs.inputs := by
      rw [← hsndIn]; exact List.mem_map_of_mem Prod.snd hp
    have hb : rule.rhs.is_boundary p.2 = true := by
      simp [Graph.is_boundary, hpmem]
    have hno : p.2 ∉ (List.zip rule.lhs.outputs rule.rhs.outputs).map Prod.snd := by
      rw [hsndOut]
      exact plain_disjoint rule.rhs hr p.2 hpmem
    rw [show look (dpoResult rule m).vertex_map p.2 = look (dpoStage2 rule m).2 p.2 from
      hlook3 p.2 hb, hs2, look_setFold_not_mem _ _ _ _ hno,
      look_setFold_mem (mImg m) _ hndIn [] p hp]
    rfl
  · -- every rhs output port is mapped
    intro v hv
    rw [← hsndOut] at hv
    obtain ⟨p, hp, hpv⟩ := List.mem_map.mp hv
    subst hpv
    have hpmem : p.2 ∈ rule.rhs.outputs := by
      rw [← hsndOut]; exact List.mem_map_of_mem Prod.snd hp
    have hb : rule.rhs.is_boundary p.2 = true := by
      simp [Graph.is_boundary, hpmem]
    rw [show look (dpoResult rule m).vertex_map p.2 = look (dpoStage2 rule m).2 p.2 from
      hlook3 p.2 hb, hs2, look_setFold_mem (mImg m) _ hndOut _ p hp]
    rfl
  · -- input-boundary cardinality
    have e4 : (dpoStage4 rule m).1.inputs = (dpoStage3 rule m).1.inputs := by
      rw [dpoStage4, dpoEdges_graph_inputs]
    have e3 : (dpoStage3 rule m).1.inputs = (dpoStage2 rule m).1.inputs := by
      rw [dpoStage3, dpoFresh_graph_inputs]
    have e2 : (dpoStage2 rule m).1.inputs = m.codomain.inputs := by
      rw [hs2]
      show (pcCtx rule m).inputs = m.codomain.inputs
      rw [pcCtx, pcRemove_inputs, removeMatchedEdges_inputs]
    show (dpoStage4 rule m).1.inputs.length = m.codomain.inputs.length
    rw [e4, e3, e2]
  · -- output-boundary cardinality
    have e4 : (dpoStage4 rule m).1.outputs = (dpoStage3 rule m).1.outputs := by
      rw [dpoStage4, dpoEdges_graph_outputs]
    have e3 : (dpoStage3 rule m).1.outputs = (dpoStage2 rule m).1.outputs := by
      rw [dpoStage3, dpoFresh_graph_outputs]
    have e2 : (dpoStage2 rule m).1.outputs = m.codomain.outputs := by
      rw [hs2]
      show (pcCtx rule m).outputs = m.codomain.outputs
      rw [pcCtx, pcRemove_outputs, removeMatchedEdges_outputs]
    show (dpoStage4 rule m).1.outputs.length = m.codomain.outputs.length
    rw [e4, e3, e2]

/-- The first occurrence of the `f`-edge pattern in the chain. -/
def mChain1 : Match := ⟨fEdgeG, chainG, [(0, 10), (1, 11)], [(0, 20)], [], []⟩

/-- A graph with a mid-wire vertex 5 (one inbound, one outbound tentacle). -/
def midG : Graph :=
  { vdata := [(5, {}), (6, {}), (7, {})],
    edata := [(30, { s := [6], t := [5], value := "a" }),
              (31, { s := [5], t := [7], value := "b" })],
    inputs := [], outputs := [], vindex := 8, eindex := 32 }

/-- The bare wire matched onto the mid-wire vertex of `midG`. -/
def mMid : Match := ⟨wireG0, midG, [(0, 5)], [], [], []⟩

/-- A Frobenius boundary: vertex 0 occurs twice on the input boundary. -/
def frobLhs : Graph := { vdata := [(0, {})], inputs := [0, 0], outputs := [], vindex := 1 }

def ruleFrob : Rule := ⟨frobLhs, frobLhs⟩

def mFrob : Match := ⟨frobLhs, isoG, [(0, 5)], [], [], []⟩

/-- Counterexample for C1 as stated: the bare-wire rule has no boundary
vertex with more than one inbound or outbound wire-end, yet `dpo` raises
the capability error at a valid occurrence (the bare wire matched onto an
isolated vertex), because the split of the image yields no halves. -/
theorem dpo_bare_wire_counterexample :
    noFrobenius ruleBW.lhs = true ∧ ruleBW.wf = true ∧ mBW.domain = ruleBW.lhs ∧
    matchOk mBW = true ∧ dpo ruleBW mBW = .error frobMsg := by decide

/-- Witness for the amended C1 at the `f => g` rule applied to the chain. -/
theorem dpo_plain_ok_witness :
    (mChain1.domain = ruleFG.lhs ∧ matchOk mChain1 = true ∧
      ruleFG.lhs.inputs.length = ruleFG.rhs.inputs.length ∧
      ruleFG.lhs.outputs.length = ruleFG.rhs.outputs.length ∧
      plainBoundaries ruleFG.lhs = true ∧ plainBoundaries ruleFG.rhs = true) ∧
    (∃ res : Match, dpo ruleFG mChain1 = .ok [res] ∧ res.domain = ruleFG.rhs ∧
      (∀ p ∈ List.zip ruleFG.lhs.inputs ruleFG.rhs.inputs,
        look res.vertex_map p.2 = some (mImg mChain1 p.1)) ∧
      (∀ p ∈ List.zip ruleFG.lhs.outputs ruleFG.rhs.outputs,
        look res.vertex_map p.2 = some (mImg mChain1 p.1)) ∧
      (∀ v ∈ ruleFG.rhs.inputs, (look res.vertex_map v).isSome = true) ∧
      (∀ v ∈ ruleFG.rhs.outputs, (look res.vertex_map v).isSome = true) ∧
      res.codomain.inputs.length = mChain1.codomain.inputs.length ∧
      res.codomain.outputs.length = mChain1.codomain.outputs.length) :=
  ⟨⟨rfl, by decide, rfl, rfl, by decide, by decide⟩,
    dpo_plain_ok ruleFG mChain1 rfl (by decide) rfl rfl (by decide) (by decide)⟩

/-! #### Per-vertex behaviour of the pushout-complement loop -/

/-- A boundary vertex with at most one inbound and at most one outbound
wire-end, but not one of each, is passed through untouched: same context,
same split records, no failure — from any loop state. -/
theorem pcStep_small (rule : Rule) (m : Match)
    (st : Graph × List (Nat × Nat) × List (Nat × Nat)) (v : Nat)
    (hb : rule.lhs.is_boundary v = true)
    (h1 : rule.lhs.inCount v ≤ 1) (h2 : rule.lhs.outCount v ≤ 1)
    (h3 : ¬(rule.lhs.inCount v = 1 ∧ rule.lhs.outCount v = 1)) :
    pcStep rule m st v = .ok st := by
  rw [pcStep]
  rw [if_neg (by simp [hb])]
  rw [if_neg h3]
  rw [if_neg (by omega)]

/-- A boundary vertex with exactly one inbound and one outbound wire-end
has its image exploded: a split into exactly one inbound and one outbound
half succeeds with both identities recorded, any other split fails with the
capability error — from any loop state. -/
theorem pcStep_split (rule : Rule) (m : Match)
    (st : Graph × List (Nat × Nat) × List (Nat × Nat)) (v : Nat)
    (hb : rule.lhs.is_boundary v = true)
    (hic : rule.lhs.inCount v = 1) (hoc : rule.lhs.outCount v = 1) :
    (∀ a b, (st.1.explode_vertex (mImg m v)).2.1 = [a] →
      (st.1.explode_vertex (mImg m v)).2.2 = [b] →
      pcStep rule m st v =
        .ok ((st.1.explode_vertex (mImg m v)).1, setk st.2.1 v a, setk st.2.2 v b)) ∧
    (¬((st.1.explode_vertex (mImg m v)).2.1.length = 1 ∧
        (st.1.explode_vertex (mImg m v)).2.2.length = 1) →
      pcStep rule m st v = .error (frobMsg, (st.1.explode_vertex (mImg m v)).1)) := by
  constructor
  · intro a b ha hbq
    have hlen : (st.1.explode_vertex (mImg m v)).2.1.length = 1 ∧
        (st.1.explode_vertex (mImg m v)).2.2.length = 1 := by
      rw [ha, hbq]
      exact ⟨rfl, rfl⟩
    rw [pcStep, if_neg (by simp [hb]), if_pos ⟨hic, hoc⟩, if_pos hlen, ha, hbq]
    rfl
  · intro hlen
    rw [pcStep, if_neg (by simp [hb]), if_pos ⟨hic, hoc⟩, if_neg hlen]

/-- A successful step at a one-in/one-out boundary vertex records both
half identities for that vertex. -/
theorem pcStep_split_ok_inv (rule : Rule) (m : Match)
    (st st' : Graph × List (Nat × Nat) × List (Nat × Nat)) (v : Nat)
    (hb : rule.lhs.is_boundary v = true)
    (hic : rule.lhs.inCount v = 1) (hoc : rule.lhs.outCount v = 1)
    (h : pcStep rule m st v = .ok st') :
    ∃ a b, st'.2.1 = setk st.2.1 v a ∧ st'.2.2 = setk st.2.2 v b := by
  rw [pcStep, if_neg (by simp [hb]), if_pos ⟨hic, hoc⟩] at h
  by_cases hlen : (st.1.explode_vertex (mImg m v)).2.1.length = 1 ∧
      (st.1.explode_vertex (mImg m v)).2.2.length = 1
  · rw [if_pos hlen] at h
    cases h
    exact ⟨_, _, rfl, rfl⟩
  · rw [if_neg hlen] at h
    exact Except.noConfusion h

/-- A successful step either leaves the split records unchanged or records
both halves of a one-in/one-out boundary vertex. -/
theorem pcStep_ok_cases (rule : Rule) (m : Match)
    (st st' : Graph × List (Nat × Nat) × List (Nat × Nat)) (v : Nat)
    (h : pcStep rule m st v = .ok st') :
    (st'.2.1 = st.2.1 ∧ st'.2.2 = st.2.2) ∨
    (rule.lhs.is_boundary v = true ∧ rule.lhs.inCount v = 1 ∧ rule.lhs.outCount v = 1 ∧
      ∃ a b, st'.2.1 = setk st.2.1 v a ∧ st'.2.2 = setk st.2.2 v b) := by
  rw [pcStep] at h
  by_cases h1 : rule.lhs.is_boundary v = false
  · rw [if_pos h1] at h
    cases h
    exact Or.inl ⟨rfl, rfl⟩
  · have hb : rule.lhs.is_boundary v = true := by
      revert h1
      cases rule.lhs.is_boundary v <;> simp
    rw [if_neg h1] at h
    by_cases h2 : rule.lhs.inCount v = 1 ∧ rule.lhs.outCount v = 1
    · rw [if_pos h2] at h
      by_cases h3 : (st.1.explode_vertex (mImg m v)).2.1.length = 1 ∧
          (st.1.explode_vertex (mImg m v)).2.2.length = 1
      · rw [if_pos h3] at h
        cases h
        exact Or.inr ⟨hb, h2.1, h2.2, _, _, rfl, rfl⟩
      · rw [if_neg h3] at h
        exact Except.noConfusion h
    · rw [if_neg h2] at h
      by_cases h4 : rule.lhs.inCount v > 1 ∨ rule.lhs.outCount v > 1
      · rw [if_pos h4] at h
        exact Except.noConfusion h
      · rw [if_neg h4] at h
        cases h
        exact Or.inl ⟨rfl, rfl⟩

/-- Inversion of a successful loop: the head step succeeded and the rest of
the loop ran from its state. -/
theorem pcLoop_ok_cons (rule : Rule) (m : Match) (v : Nat) (vs : List Nat)
    (st fin : Graph × List (Nat × Nat) × List (Nat × Nat))
    (h : pcLoop rule m (v :: vs) st = .ok fin) :
    ∃ st', pcStep rule m st v = .ok st' ∧ pcLoop rule m vs st' = .ok fin := by
  rw [pcLoop] at h
  cases hstep : pcStep rule m st v with
  | error e =>
    rw [hstep] at h
    exact Except.noConfusion h
  | ok st' =>
    rw [hstep] at h
    exact ⟨st', rfl, h⟩

/-- Any failure of the vertex loop carries the capability message. -/
theorem pcLoop_error_msg (rule : Rule) (m : Match) :
    ∀ (vs : List Nat) (st : Graph × List (Nat × Nat) × List (Nat × Nat))
      (e : String × Graph),
      pcLoop rule m vs st = .error e → e.1 = frobMsg := by
  intro vs
  induction vs with
  | nil =>
    intro st e h
    rw [pcLoop] at h
    exact Except.noConfusion h
  | cons w rest ih =>
    intro st e h
    rw [pcLoop] at h
    cases hstep : pcStep rule m st w with
    | error e' =>
      rw [hstep] at h
      dsimp only at h
      cases h
      exact pcStep_error_msg rule m st w _ hstep
    | ok st' =>
      rw [hstep] at h
      exact ih st' e h

/-- A successful loop never touches the split records of a vertex that is
not a one-in/one-out boundary vertex. -/
theorem pcLoop_ok_nonsplit (rule : Rule) (m : Match) :
    ∀ (vs : List Nat) (st fin : Graph × List (Nat × Nat) × List (Nat × Nat)),
      pcLoop rule m vs st = .ok fin →
      ∀ k, ¬(rule.lhs.is_boundary k = true ∧ rule.lhs.inCount k = 1 ∧
          rule.lhs.outCount k = 1) →
        look fin.2.1 k = look st.2.1 k ∧ look fin.2.2 k = look st.2.2 k := by
  intro vs
  induction vs with
  | nil =>
    intro st fin h k _
    rw [pcLoop] at h
    cases h
    exact ⟨rfl, rfl⟩
  | cons w rest ih =>
    intro st fin h k hk
    obtain ⟨st', hstep, hrest⟩ := pcLoop_ok_cons rule m w rest st fin h
    obtain ⟨e1, e2⟩ := ih st' fin hrest k hk
    rcases pcStep_ok_cases rule m st st' w hstep with ⟨m1, m2⟩ |
      ⟨hb, hic, hoc, a, b, m1, m2⟩
    · rw [e1, e2, m1, m2]
      exact ⟨rfl, rfl⟩
    · have hwk : w ≠ k := by
        rintro rfl
        exact hk ⟨hb, hic, hoc⟩
      rw [e1, e2, m1, m2, look_setk_ne _ _ _ _ hwk, look_setk_ne _ _ _ _ hwk]
      exact ⟨rfl, rfl⟩

/-- A successful loop never drops a key from the split records. -/
theorem pcLoop_ok_keeps_some (rule : Rule) (m : Match) :
    ∀ (vs : List Nat) (st fin : Graph × List (Nat × Nat) × List (Nat × Nat)),
      pcLoop rule m vs st = .ok fin →
      ∀ k, ((look st.2.1 k).isSome = true → (look fin.2.1 k).isSome = true) ∧
        ((look st.2.2 k).isSome = true → (look fin.2.2 k).isSome = true) := by
  intro vs
  induction vs with
  | nil =>
    intro st fin h k
    rw [pcLoop] at h
    cases h
    exact ⟨id, id⟩
  | cons w rest ih =>
    intro st fin h k
    obtain ⟨st', hstep, hrest⟩ := pcLoop_ok_cons rule m w rest st fin h
    have hih := ih st' fin hrest k
    rcases pcStep_ok_cases rule m st st' w hstep with ⟨m1, m2⟩ |
      ⟨_, _, _, a, b, m1, m2⟩
    · exact ⟨fun hs => hih.1 (by rw [m1]; exact hs), fun hs => hih.2 (by rw [m2]; exact hs)⟩
    · constructor
      · intro hs
        apply hih.1
        rw [m1]
        by_cases hwk : w = k
        · subst hwk
          rw [look_setk_self]
          rfl
        · rw [look_setk_ne _ _ _ _ hwk]
          exact hs
      · intro hs
        apply hih.2
        rw [m2]
        by_cases hwk : w = k
        · subst hwk
          rw [look_setk_self]
          rfl
        · rw [look_setk_ne _ _ _ _ hwk]
          exact hs

/-- A successful loop records both half identities for every one-in/one-out
boundary vertex it processed. -/
theorem pcLoop_ok_split_recorded (rule : Rule) (m : Match) :
    ∀ (vs : List Nat) (st fin : Graph × List (Nat × Nat) × List (Nat × Nat)),
      pcLoop rule m vs st = .ok fin →
      ∀ v ∈ vs, rule.lhs.is_boundary v = true →
        rule.lhs.inCount v = 1 → rule.lhs.outCount v = 1 →
        (look fin.2.1 v).isSome = true ∧ (look fin.2.2 v).isSome = true := by
  intro vs
  induction vs with
  | nil =>
    intro st fin _ v hv
    exact absurd hv (List.not_mem_nil v)
  | cons w rest ih =>
    intro st fin h v hv hb hic hoc
    obtain ⟨st', hstep, hrest⟩ := pcLoop_ok_cons rule m w rest st fin h
    rcases List.mem_cons.mp hv with hq | hq
    · subst hq
      obtain ⟨a, b, e1, e2⟩ := pcStep_split_ok_inv rule m st st' v hb hic hoc hstep
      have hsome1 : (look st'.2.1 v).isSome = true := by
        rw [e1, look_setk_self]
        rfl
      have hsome2 : (look st'.2.2 v).isSome = true := by
        rw [e2, look_setk_self]
        rfl
      exact ⟨(pcLoop_ok_keeps_some rule m rest st' fin hrest v).1 hsome1,
        (pcLoop_ok_keeps_some rule m rest st' fin hrest v).2 hsome2⟩
    · exact ih st' fin hrest v hq hb hic hoc

/-- The error value of the failing bare-wire pushout complement. -/
def pcBWerr : String × Graph :=
  match pushout_complement ruleBW mBW with
  | .error e => e
  | .ok _ => ("", {})

/-- A mixed-shape left-hand side: vertex 0 is an input-only port, vertex 1
is a bare wire (one inbound and one outbound wire-end), vertex 2 is
interior, vertex 3 is an output-only port. -/
def mixLhs : Graph :=
  { vdata := [(0, {}), (1, {}), (2, {}), (3, {})],
    edata := [(0, { s := [0], t := [2], value := "e" }),
              (1, { s := [2], t := [3], value := "e" })],
    inputs := [0, 1], outputs := [1, 3], vindex := 4, eindex := 2 }

/-- A target for the mixed rule whose bare-wire image sits mid-wire. -/
def mixH : Graph :=
  { vdata := [(10, {}), (11, {}), (12, {}), (13, {}), (14, {}), (15, {})],
    edata := [(40, { s := [10], t := [12], value := "e" }),
              (41, { s := [12], t := [13], value := "e" }),
              (42, { s := [14], t := [11], value := "w" }),
              (43, { s := [11], t := [15], value := "w" })],
    inputs := [], outputs := [], vindex := 16, eindex := 44 }

def ruleMix : Rule := ⟨mixLhs, mixLhs⟩

def mMix : Match := ⟨mixLhs, mixH, [(0, 10), (1, 11), (2, 12), (3, 13)], [(0, 40), (1, 41)], [], []⟩

/-- The result of the successful mixed-shape pushout complement. -/
def pcMixRes : Graph × List (Nat × Nat) × List (Nat × Nat) :=
  match pushout_complement ruleMix mMix with
  | .ok st => st
  | .error _ => ({}, [], [])

/-- **C3 (amended).** Per-vertex behaviour of the pushout complement, for
every rule, match and loop state: a boundary vertex with exactly one
inbound and one outbound wire-end has its image exploded, both half
identities being recorded when the split yields exactly one half of each
kind and the capability error being raised otherwise; a boundary vertex
with more than one inbound or more than one outbound wire-end anywhere in
the left side makes the whole call fail with the capability error (and the
capability error is the only failure the complement can raise); and a
boundary vertex with any other count — zero inbound and/or zero outbound —
is left untouched and does not fail, so on every successful run the split
records hold exactly the one-in/one-out boundary vertices. -/
theorem pushout_complement_boundary_shapes :
    (∀ (rule : Rule) (m : Match) (st : Graph × List (Nat × Nat) × List (Nat × Nat)) (v : Nat),
      rule.lhs.is_boundary v = true →
      rule.lhs.inCount v ≤ 1 → rule.lhs.outCount v ≤ 1 →
      ¬(rule.lhs.inCount v = 1 ∧ rule.lhs.outCount v = 1) →
      pcStep rule m st v = .ok st) ∧
    (∀ (rule : Rule) (m : Match) (st : Graph × List (Nat × Nat) × List (Nat × Nat)) (v : Nat),
      rule.lhs.is_boundary v = true →
      rule.lhs.inCount v = 1 → rule.lhs.outCount v = 1 →
      (∀ a b, (st.1.explode_vertex (mImg m v)).2.1 = [a] →
        (st.1.explode_vertex (mImg m v)).2.2 = [b] →
        pcStep rule m st v =
          .ok ((st.1.explode_vertex (mImg m v)).1, setk st.2.1 v a, setk st.2.2 v b)) ∧
      (¬((st.1.explode_vertex (mImg m v)).2.1.length = 1 ∧
          (st.1.explode_vertex (mImg m v)).2.2.length = 1) →
        pcStep rule m st v = .error (frobMsg, (st.1.explode_vertex (mImg m v)).1))) ∧
    (∀ (rule : Rule) (m : Match),
      (∃ v ∈ rule.lhs.vertices, rule.lhs.is_boundary v = true ∧
        (rule.lhs.inCount v > 1 ∨ rule.lhs.outCount v > 1)) →
      dpo rule m = .error frobMsg) ∧
    (∀ (rule : Rule) (m : Match) (e : String × Graph),
      pushout_complement rule m = .error e → e.1 = frobMsg) ∧
    (∀ (rule : Rule) (m : Match) (ctx : Graph) (im om : List (Nat × Nat)),
      pushout_complement rule m = .ok (ctx, im, om) →
      (∀ v ∈ rule.lhs.vertices, rule.lhs.is_boundary v = true →
        rule.lhs.inCount v = 1 → rule.lhs.outCount v = 1 →
        (look im v).isSome = true ∧ (look om v).isSome = true) ∧
      (∀ v, rule.lhs.is_boundary v = true →
        ¬(rule.lhs.inCount v = 1 ∧ rule.lhs.outCount v = 1) →
        look im v = none ∧ look om v = none)) := by
  refine ⟨pcStep_small, pcStep_split, ?_, ?_, ?_⟩
  · intro rule m hbad
    obtain ⟨g, hg⟩ := pcLoop_error_of_bad rule m rule.lhs.vertices
      (removeMatchedEdges rule m m.codomain.copy, [], []) hbad
    rw [dpo, dpoCtx, pushout_complement, hg]
  · intro rule m e h
    rw [pushout_complement] at h
    exact pcLoop_error_msg rule m rule.lhs.vertices _ e h
  · intro rule m ctx im om h
    rw [pushout_complement] at h
    constructor
    · intro v hv hb hic hoc
      exact pcLoop_ok_split_recorded rule m rule.lhs.vertices _ (ctx, im, om) h v hv hb hic hoc
    · intro v hb hnot
      have hk : ¬(rule.lhs.is_boundary v = true ∧ rule.lhs.inCount v = 1 ∧
          rule.lhs.outCount v = 1) := by
        rintro ⟨_, hi, ho⟩
        exact hnot ⟨hi, ho⟩
      have := pcLoop_ok_nonsplit rule m rule.lhs.vertices _ (ctx, im, om) h v hk
      simpa using this

/-- Witness for the amended C3, one concrete instance per clause: the
`f => g` rule's zero-count input port passes untouched; the bare wire's
one-in/one-out port explodes mid-wire recording halves 8 and 9; the
doubled input port fails the whole call; the failing bare-wire complement
carries the capability message; and the mixed-shape rule's successful run
records exactly its bare-wire vertex. -/
theorem pushout_complement_boundary_shapes_witness :
    (ruleFG.lhs.is_boundary 0 = true ∧ ruleFG.lhs.inCount 0 ≤ 1 ∧
      ruleFG.lhs.outCount 0 ≤ 1 ∧
      ¬(ruleFG.lhs.inCount 0 = 1 ∧ ruleFG.lhs.outCount 0 = 1) ∧
      pcStep ruleFG mChain1 (chainG, [], []) 0 = .ok (chainG, [], [])) ∧
    (ruleBW.lhs.is_boundary 0 = true ∧ ruleBW.lhs.inCount 0 = 1 ∧
      ruleBW.lhs.outCount 0 = 1 ∧
      (midG.explode_vertex (mImg mMid 0)).2.1 = [8] ∧
      (midG.explode_vertex (mImg mMid 0)).2.2 = [9] ∧
      pcStep ruleBW mMid (midG, [], []) 0 =
        .ok ((midG.explode_vertex (mImg mMid 0)).1, setk [] 0 8, setk [] 0 9)) ∧
    ((∃ v ∈ ruleFrob.lhs.vertices, ruleFrob.lhs.is_boundary v = true ∧
        (ruleFrob.lhs.inCount v > 1 ∨ ruleFrob.lhs.outCount v > 1)) ∧
      dpo ruleFrob mFrob = .error frobMsg) ∧
    (pushout_complement ruleBW mBW = .error pcBWerr ∧ pcBWerr.1 = frobMsg) ∧
    (pushout_complement ruleMix mMix = .ok (pcMixRes.1, pcMixRes.2.1, pcMixRes.2.2) ∧
      ((look pcMixRes.2.1 1).isSome = true ∧ (look pcMixRes.2.2 1).isSome = true) ∧
      (look pcMixRes.2.1 0 = none ∧ look pcMixRes.2.2 0 = none)) := by
  have h5 := pushout_complement_boundary_shapes.2.2.2.2 ruleMix mMix
    pcMixRes.1 pcMixRes.2.1 pcMixRes.2.2 (by decide)
  exact ⟨⟨by decide, by decide, by decide, by decide,
      pushout_complement_boundary_shapes.1 ruleFG mChain1 (chainG, [], []) 0
        (by decide) (by decide) (by decide) (by decide)⟩,
    ⟨by decide, by decide, by decide, by decide, by decide,
      (pushout_complement_boundary_shapes.2.1 ruleBW mMid (midG, [], []) 0
        (by decide) (by decide) (by decide)).1 8 9 (by decide) (by decide)⟩,
    ⟨by decide, pushout_complement_boundary_shapes.2.2.1 ruleFrob mFrob (by decide)⟩,
    ⟨by decide, pushout_complement_boundary_shapes.2.2.2.1 ruleBW mBW pcBWerr (by decide)⟩,
    ⟨by decide, h5.1 1 (by decide) (by decide) (by decide) (by decide),
      h5.2 0 (by decide) (by decide)⟩⟩

/-- Counterexample for C3 as stated: an `lhs` boundary vertex with zero
outbound wire-ends (the input port of the `f => g` rule) does not make the
call fail — `dpo` succeeds at a valid occurrence. -/
theorem pc_zero_count_counterexample :
    ruleFG.lhs.is_boundary 0 = true ∧ ruleFG.lhs.inCount 0 = 1 ∧
    ruleFG.lhs.outCount 0 = 0 ∧ mChain1.domain = ruleFG.lhs ∧ matchOk mChain1 = true ∧
    (dpo ruleFG mChain1).isOk = true := by decide

/-! ### The rewrite sequence of `rewrite_lhs` -/

/-- A placeholder match used to express out-of-range indexing. -/
def mDefault : Match := ⟨{}, {}, [], [], [], []⟩

/-- Every occurrence the finder enumerates is an occurrence in the graph it
was asked about. -/
theorem MatchesList_codomain (p g : Graph) : ∀ m ∈ MatchesList p g, m.codomain = g := by
  intro m hm
  rw [MatchesList] at hm
  obtain ⟨vm, _, hm2⟩ := List.mem_flatMap.mp hm
  obtain ⟨em, _, hm3⟩ := List.mem_filterMap.mp hm2
  by_cases hok : matchOk ⟨p, g, vm, em, [], []⟩ = true
  · rw [if_pos hok] at hm3
    cases hm3
    rfl
  · rw [if_neg hok] at hm3
    exact Option.noConfusion hm3

/-- A successful `dpo` returns exactly one result occurrence. -/
theorem dpo_isOk_singleton (rule : Rule) (m : Match)
    (h : (dpo rule m).isOk = true) : ∃ mh, dpo rule m = .ok [mh] := by
  cases hc : dpoCtx rule m with
  | error e =>
    exfalso
    simp [dpo, hc, Except.isOk, Except.toBool] at h
  | ok r =>
    refine ⟨r.2, ?_⟩
    rw [dpo, hc]

/-- Committing a graph into the resolved target side only replaces that
rule's left side. -/
theorem target_rule_set (ps : ProofState) (t : String) (tr : Rule) (g : Graph)
    (h : ps.target_rule t = some tr) :
    (ps.set_target_lhs t g).target_rule t = some { tr with lhs := g } := by
  by_cases hc : t = "" ∧ ps.goals.length > 0
  · obtain ⟨ht, hlen⟩ := hc
    cases hgoals : ps.goals with
    | nil => rw [hgoals] at hlen; simp at hlen
    | cons g0 rest =>
      have htr : tr = g0.formula := by
        rw [ProofState.target_rule, if_pos ⟨ht, hlen⟩, hgoals] at h
        simpa using h.symm
      rw [ProofState.set_target_lhs, if_pos ⟨ht, hlen⟩, hgoals]
      rw [ProofState.target_rule]
      rw [if_pos ⟨ht, by simp⟩]
      simp [htr]
  · have h' : look ps.context t = some tr := by
      rw [ProofState.target_rule, if_neg hc] at h
      exact h
    rw [ProofState.set_target_lhs, if_neg hc, h']
    have hc' : ¬(t = "" ∧
        ({ ps with context := setk ps.context t { tr with lhs := g } } :
          ProofState).goals.length > 0) := hc
    rw [ProofState.target_rule, if_neg hc']
    exact look_setk_self _ _ _

/-- The inner rewrite loop over a fixed occurrence enumeration: every
yielded pair carries one enumerated occurrence and its `dpo` result, and
the state after the loop holds the commit of the last yielded pair alone. -/
theorem rewrite_lhs_from_spec (rule : Rule) (target : String) :
    ∀ (ms : List Match) (ps0 : ProofState) (acc : List (Match × Match)) (tr0 : Rule),
      ps0.target_rule target = some tr0 →
      (∀ mg ∈ ms, (dpo rule mg).isOk = true) →
      ms ≠ [] →
      ∃ (prs : List (Match × Match)) (ps' : ProofState),
        ProofState.rewrite_lhs_from rule target ms ps0 acc = .ok (acc ++ prs, ps') ∧
        prs.map Prod.fst = ms ∧
        (∀ pr ∈ prs, dpo rule pr.1 = .ok [pr.2]) ∧
        ∃ prLast, prs.getLast? = some prLast ∧
          ps'.target_rule target = some { tr0 with lhs := prLast.2.codomain.copy } := by
  intro ms
  induction ms with
  | nil => intro ps0 acc tr0 _ _ hne; exact absurd rfl hne
  | cons mg rest ih =>
    intro ps0 acc tr0 htr hok _
    obtain ⟨mh, hmh⟩ := dpo_isOk_singleton rule mg (hok mg (List.mem_cons_self mg rest))
    have hstep : ProofState.rewrite_lhs_from rule target (mg :: rest) ps0 acc =
        ProofState.rewrite_lhs_from rule target rest
          (ps0.set_target_lhs target mh.codomain.copy) (acc ++ [(mg, mh)]) := by
      rw [ProofState.rewrite_lhs_from, hmh]
      rfl
    have htr1 := target_rule_set ps0 target tr0 mh.codomain.copy htr
    by_cases hrestne : rest = []
    · subst hrestne
      refine ⟨[(mg, mh)], ps0.set_target_lhs target mh.codomain.copy, ?_, by simp, ?_,
        ⟨(mg, mh), rfl, htr1⟩⟩
      · rw [hstep]
        rfl
      · intro pr hpr
        have hpr' := List.mem_singleton.mp hpr
        subst hpr'
        exact hmh
    · obtain ⟨prs', ps', hfrom, hmap, hdpo, prLast, hlast, hfinal⟩ :=
        ih (ps0.set_target_lhs target mh.codomain.copy) (acc ++ [(mg, mh)])
          { tr0 with lhs := mh.codomain.copy } htr1
          (fun m hm => hok m (List.mem_cons_of_mem mg hm)) hrestne
      have hprsne : prs' ≠ [] := by
        intro hnil
        rw [hnil] at hmap
        exact hrestne hmap.symm
      refine ⟨(mg, mh) :: prs', ps', ?_, by rw [List.map_cons, hmap], ?_, ?_⟩
      · rw [hstep, hfrom]
        simp
      · intro pr hpr
        rcases List.mem_cons.mp hpr with h | h
        · subst h
          exact hmh
        · exact hdpo pr h
      · refine ⟨prLast, ?_, hfinal⟩
        cases prs' with
        | nil => exact absurd rfl hprsne
        | cons a l =>
          rw [List.getLast?_cons_cons]
          exact hlast

/-- For a resolving rule and target, pulling `k` elements of the
`rewrite_lhs` sequence yields the occurrences of the rule's left side in
the target side's graph as it was when iteration started, and after `k`
pulls the target side holds the commit of the last yielded pair alone. -/
theorem rewrite_lhs_snapshot (ps : ProofState) (expr target : String)
    (rule tr : Rule) (k : Nat)
    (hlook : ps.lookup_rule expr = (ps, some rule))
    (htr : ps.target_rule target = some tr)
    (hk1 : 1 ≤ k) (hk2 : k ≤ (MatchesList rule.lhs tr.lhs).length)
    (hok : ∀ mg ∈ MatchesList rule.lhs tr.lhs, (dpo rule mg).isOk = true) :
    ∃ (prs : List (Match × Match)) (ps' : ProofState),
      ps.rewrite_lhs expr target k = .ok (prs, ps') ∧
      prs.map Prod.fst = (MatchesList rule.lhs tr.lhs).take k ∧
      (∀ pr ∈ prs, pr.1.codomain = tr.lhs ∧ dpo rule pr.1 = .ok [pr.2]) ∧
      ∃ prLast, prs.getLast? = some prLast ∧
        ps'.target_rule target = some { tr with lhs := prLast.2.codomain.copy } := by
  have hne : (MatchesList rule.lhs tr.lhs).take k ≠ [] := by
    intro h
    have hlen := congrArg List.length h
    rw [List.length_take, List.length_nil] at hlen
    omega
  have hokk : ∀ mg ∈ (MatchesList rule.lhs tr.lhs).take k, (dpo rule mg).isOk = true :=
    fun mg hm => hok mg (List.take_subset _ _ hm)
  obtain ⟨prs, ps', hfrom, hmap, hprs, prLast, hlast, hfinal⟩ :=
    rewrite_lhs_from_spec rule target ((MatchesList rule.lhs tr.lhs).take k)
      ps [] tr htr hokk hne
  refine ⟨prs, ps', ?_, hmap, ?_, prLast, hlast, hfinal⟩
  · rw [ProofState.rewrite_lhs, hlook]
    dsimp only
    rw [htr]
    dsimp only
    rw [hfrom]
    simp
  · intro pr hpr
    refine ⟨?_, hprs pr hpr⟩
    have h1 : pr.1 ∈ prs.map Prod.fst := List.mem_map_of_mem Prod.fst hpr
    rw [hmap] at h1
    exact MatchesList_codomain _ _ _ (List.take_subset _ _ h1)

/-- Committing a graph into the resolved target side only replaces that
rule's right side. -/
theorem target_rule_set_rhs (ps : ProofState) (t : String) (tr : Rule) (g : Graph)
    (h : ps.target_rule t = some tr) :
    (ps.set_target_rhs t g).target_rule t = some { tr with rhs := g } := by
  by_cases hc : t = "" ∧ ps.goals.length > 0
  · obtain ⟨ht, hlen⟩ := hc
    cases hgoals : ps.goals with
    | nil => rw [hgoals] at hlen; simp at hlen
    | cons g0 rest =>
      have htr : tr = g0.formula := by
        rw [ProofState.target_rule, if_pos ⟨ht, hlen⟩, hgoals] at h
        simpa using h.symm
      rw [ProofState.set_target_rhs, if_pos ⟨ht, hlen⟩, hgoals]
      rw [ProofState.target_rule]
      rw [if_pos ⟨ht, by simp⟩]
      simp [htr]
  · have h' : look ps.context t = some tr := by
      rw [ProofState.target_rule, if_neg hc] at h
      exact h
    rw [ProofState.set_target_rhs, if_neg hc, h']
    have hc' : ¬(t = "" ∧
        ({ ps with context := setk ps.context t { tr with rhs := g } } :
          ProofState).goals.length > 0) := hc
    rw [ProofState.target_rule, if_neg hc']
    exact look_setk_self _ _ _

/-- The inner right-side rewrite loop over a fixed occurrence enumeration:
every yielded pair carries one enumerated occurrence and its `dpo` result,
and the state after the loop holds the commit of the last yielded pair
alone. -/
theorem rewrite_rhs_from_spec (rule : Rule) (target : String) :
    ∀ (ms : List Match) (ps0 : ProofState) (acc : List (Match × Match)) (tr0 : Rule),
      ps0.target_rule target = some tr0 →
      (∀ mg ∈ ms, (dpo rule mg).isOk = true) →
      ms ≠ [] →
      ∃ (prs : List (Match × Match)) (ps' : ProofState),
        ProofState.rewrite_rhs_from rule target ms ps0 acc = .ok (acc ++ prs, ps') ∧
        prs.map Prod.fst = ms ∧
        (∀ pr ∈ prs, dpo rule pr.1 = .ok [pr.2]) ∧
        ∃ prLast, prs.getLast? = some prLast ∧
          ps'.target_rule target = some { tr0 with rhs := prLast.2.codomain.copy } := by
  intro ms
  induction ms with
  | nil => intro ps0 acc tr0 _ _ hne; exact absurd rfl hne
  | cons mg rest ih =>
    intro ps0 acc tr0 htr hok _
    obtain ⟨mh, hmh⟩ := dpo_isOk_singleton rule mg (hok mg (List.mem_cons_self mg rest))
    have hstep : ProofState.rewrite_rhs_from rule target (mg :: rest) ps0 acc =
        ProofState.rewrite_rhs_from rule target rest
          (ps0.set_target_rhs target mh.codomain.copy) (acc ++ [(mg, mh)]) := by
      rw [ProofState.rewrite_rhs_from, hmh]
      rfl
    have htr1 := target_rule_set_rhs ps0 target tr0 mh.codomain.copy htr
    by_cases hrestne : rest = []
    · subst hrestne
      refine ⟨[(mg, mh)], ps0.set_target_rhs target mh.codomain.copy, ?_, by simp, ?_,
        ⟨(mg, mh), rfl, htr1⟩⟩
      · rw [hstep]
        rfl
      · intro pr hpr
        have hpr' := List.mem_singleton.mp hpr
        subst hpr'
        exact hmh
    · obtain ⟨prs', ps', hfrom, hmap, hdpo, prLast, hlast, hfinal⟩ :=
        ih (ps0.set_target_rhs target mh.codomain.copy) (acc ++ [(mg, mh)])
          { tr0 with rhs := mh.codomain.copy } htr1
          (fun m hm => hok m (List.mem_cons_of_mem mg hm)) hrestne
      have hprsne : prs' ≠ [] := by
        intro hnil
        rw [hnil] at hmap
        exact hrestne hmap.symm
      refine ⟨(mg, mh) :: prs', ps', ?_, by rw [List.map_cons, hmap], ?_, ?_⟩
      · rw [hstep, hfrom]
        simp
      · intro pr hpr
        rcases List.mem_cons.mp hpr with h | h
        · subst h
          exact hmh
        · exact hdpo pr h
      · refine ⟨prLast, ?_, hfinal⟩
        cases prs' with
        | nil => exact absurd rfl hprsne
        | cons a l =>
          rw [List.getLast?_cons_cons]
          exact hlast

/-- For a resolving rule and target, pulling `k` elements of the
`rewrite_rhs` sequence yields the occurrences of the rule's left side in
the target side's right graph as it was when iteration started, and after
`k` pulls the target side holds the commit of the last yielded pair
alone. -/
theorem rewrite_rhs_snapshot (ps : ProofState) (expr target : String)
    (rule tr : Rule) (k : Nat)
    (hlook : ps.lookup_rule expr = (ps, some rule))
    (htr : ps.target_rule target = some tr)
    (hk1 : 1 ≤ k) (hk2 : k ≤ (MatchesList rule.lhs tr.rhs).length)
    (hok : ∀ mg ∈ MatchesList rule.lhs tr.rhs, (dpo rule mg).isOk = true) :
    ∃ (prs : List (Match × Match)) (ps' : ProofState),
      ps.rewrite_rhs expr target k = .ok (prs, ps') ∧
      prs.map Prod.fst = (MatchesList rule.lhs tr.rhs).take k ∧
      (∀ pr ∈ prs, pr.1.codomain = tr.rhs ∧ dpo rule pr.1 = .ok [pr.2]) ∧
      ∃ prLast, prs.getLast? = some prLast ∧
        ps'.target_rule target = some { tr with rhs := prLast.2.codomain.copy } := by
  have hne : (MatchesList rule.lhs tr.rhs).take k ≠ [] := by
    intro h
    have hlen := congrArg List.length h
    rw [List.length_take, List.length_nil] at hlen
    omega
  have hokk : ∀ mg ∈ (MatchesList rule.lhs tr.rhs).take k, (dpo rule mg).isOk = true :=
    fun mg hm => hok mg (List.take_subset _ _ hm)
  obtain ⟨prs, ps', hfrom, hmap, hprs, prLast, hlast, hfinal⟩ :=
    rewrite_rhs_from_spec rule target ((MatchesList rule.lhs tr.rhs).take k)
      ps [] tr htr hokk hne
  refine ⟨prs, ps', ?_, hmap, ?_, prLast, hlast, hfinal⟩
  · rw [ProofState.rewrite_rhs, hlook]
    dsimp only
    rw [htr]
    dsimp only
    rw [hfrom]
    simp
  · intro pr hpr
    refine ⟨?_, hprs pr hpr⟩
    have h1 : pr.1 ∈ prs.map Prod.fst := List.mem_map_of_mem Prod.fst hpr
    rw [hmap] at h1
    exact MatchesList_codomain _ _ _ (List.take_subset _ _ h1)

/-- **C4 (amended).** For every resolving rule and target and both sides:
pulling `k` elements of the `rewrite_lhs` (resp. `rewrite_rhs`) sequence
yields, pair by pair, the occurrences of the rule's left side in the
target side's graph *as it was when iteration started* (every yielded
pattern occurrence has that graph as codomain) together with their `dpo`
results; each completed element commits its rewritten graph into the
target side immediately, so after `k` pulls the target side holds exactly
the commit of the last yielded pair — not a commit chained through the
earlier rewrites. -/
theorem rewrite_snapshot_commits :
    (∀ (ps : ProofState) (expr target : String) (rule tr : Rule) (k : Nat),
      ps.lookup_rule expr = (ps, some rule) →
      ps.target_rule target = some tr →
      1 ≤ k → k ≤ (MatchesList rule.lhs tr.lhs).length →
      (∀ mg ∈ MatchesList rule.lhs tr.lhs, (dpo rule mg).isOk = true) →
      ∃ (prs : List (Match × Match)) (ps' : ProofState),
        ps.rewrite_lhs expr target k = .ok (prs, ps') ∧
        prs.map Prod.fst = (MatchesList rule.lhs tr.lhs).take k ∧
        (∀ pr ∈ prs, pr.1.codomain = tr.lhs ∧ dpo rule pr.1 = .ok [pr.2]) ∧
        ∃ prLast, prs.getLast? = some prLast ∧
          ps'.target_rule target = some { tr with lhs := prLast.2.codomain.copy }) ∧
    (∀ (ps : ProofState) (expr target : String) (rule tr : Rule) (k : Nat),
      ps.lookup_rule expr = (ps, some rule) →
      ps.target_rule target = some tr →
      1 ≤ k → k ≤ (MatchesList rule.lhs tr.rhs).length →
      (∀ mg ∈ MatchesList rule.lhs tr.rhs, (dpo rule mg).isOk = true) →
      ∃ (prs : List (Match × Match)) (ps' : ProofState),
        ps.rewrite_rhs expr target k = .ok (prs, ps') ∧
        prs.map Prod.fst = (MatchesList rule.lhs tr.rhs).take k ∧
        (∀ pr ∈ prs, pr.1.codomain = tr.rhs ∧ dpo rule pr.1 = .ok [pr.2]) ∧
        ∃ prLast, prs.getLast? = some prLast ∧
          ps'.target_rule target = some { tr with rhs := prLast.2.codomain.copy }) :=
  ⟨rewrite_lhs_snapshot, rewrite_rhs_snapshot⟩

/-- The pairs yielded by pulling `k` elements of the rewrite sequence of
`psW` with rule `r`. -/
def rwPairs (k : Nat) : List (Match × Match) :=
  ((psW.rewrite_lhs "r" "" k).toOption.map Prod.fst).getD []

/-- The target side's graph after pulling `k` elements of the rewrite
sequence of `psW` with rule `r`. -/
def rwStateLhs (k : Nat) : Option Graph :=
  ((psW.rewrite_lhs "r" "" k).toOption.map Prod.snd).bind
    (fun p => (p.target_rule "").map (fun r => r.lhs))

/-- Counterexample for C4 as stated: after the first pull the target side's
current graph is no longer the chain, yet the second pulled element was
matched against the original chain (the snapshot taken when iteration
started), not against the current, already-rewritten graph. -/
theorem rewrite_lhs_not_reread_counterexample :
    (rwPairs 2).length = 2 ∧
    ((rwPairs 2).getD 1 (mDefault, mDefault)).1.codomain = chainG ∧
    rwStateLhs 1 ≠ some chainG := by decide

/-- Witness for the amended C4: the `f => g` rule pulled twice on the
chain goal, on the left side and on the right side. -/
theorem rewrite_snapshot_commits_witness :
    (psW.lookup_rule "r" = (psW, some ruleFG) ∧
      psW.target_rule "" = some ⟨chainG, chainG⟩ ∧
      1 ≤ 2 ∧ 2 ≤ (MatchesList ruleFG.lhs chainG).length ∧
      ∀ mg ∈ MatchesList ruleFG.lhs chainG, (dpo ruleFG mg).isOk = true) ∧
    (∃ (prs : List (Match × Match)) (ps' : ProofState),
      psW.rewrite_lhs "r" "" 2 = .ok (prs, ps') ∧
      prs.map Prod.fst = (MatchesList ruleFG.lhs chainG).take 2 ∧
      (∀ pr ∈ prs, pr.1.codomain = chainG ∧ dpo ruleFG pr.1 = .ok [pr.2]) ∧
      ∃ prLast, prs.getLast? = some prLast ∧
        ps'.target_rule "" = some ⟨prLast.2.codomain.copy, chainG⟩) ∧
    (∃ (prs : List (Match × Match)) (ps' : ProofState),
      psW.rewrite_rhs "r" "" 2 = .ok (prs, ps') ∧
      prs.map Prod.fst = (MatchesList ruleFG.lhs chainG).take 2 ∧
      (∀ pr ∈ prs, pr.1.codomain = chainG ∧ dpo ruleFG pr.1 = .ok [pr.2]) ∧
      ∃ prLast, prs.getLast? = some prLast ∧
        ps'.target_rule "" = some ⟨chainG, prLast.2.codomain.copy⟩) :=
  ⟨⟨by decide, by decide, by decide, by decide, by decide⟩,
    rewrite_snapshot_commits.1 psW "r" "" ruleFG ⟨chainG, chainG⟩ 2 (by decide)
      (by decide) (by decide) (by decide) (by decide),
    rewrite_snapshot_commits.2 psW "r" "" ruleFG ⟨chainG, chainG⟩ 2 (by decide)
      (by decide) (by decide) (by decide) (by decide)⟩

end Chyp
